import Mathlib

/-!
Verification of the Streamlit-Carpooling assignment engines.

This file is a shallow embedding, in Lean 4, of the algorithmic core of the
repository:

* `givetochat1_6.py` — `Person`, `Parser._cluster_by_time`,
  `Parser.ride_to_hotel`, `Parser.ride_to_support`, `Parser.ride_to_airport`;
* `cabpool.py` — `_generate_airport_cab_id`, `_assign_with_app_preference`,
  `_assign_cabs`, the counter threading of `write_cab_excel`;
* `go_live_carpooling.py` — `assign_carpool_passengers` and the support
  backfill pass of `generate_carpool_assignments`;
* `team_trip_carpooling.py` — `simple_assign_passengers`.

Modelling conventions, used throughout:

* A Python `datetime` is modelled as an `Int`: seconds since the Unix epoch.
  `dt.date()` is `dt / 86400` (floored division, matching Python's behaviour
  on negatives), `dt.time()` is `dt % 86400` (nonnegative, like Python's
  `%`).  `datetime.min` (the sentinel returned by `safe_parse_datetime` for
  unparsable fields) is the constant `datetimeMin = -62135596800`, the epoch
  second of 0001-01-01 00:00:00; it is divisible by 86400, so its time of
  day is 0, exactly like Python's `datetime.min.time() == time(0, 0)`.
* A Python `time` (clock time) is an `Int`: seconds after midnight.
  `time.min` is `0`.
* `strftime` keys: the format `'%Y-%m-%d %H:%M'` determines, and is
  determined by, the timestamp truncated to the minute, so it is modelled by
  rendering `t / 60`; `'%H:%M'` by rendering `(t % 86400) / 60`; `date()`
  by rendering `t / 86400`.  Each rendering is injective in the model value,
  which is all the grouping code relies on.
* Python dicts (`defaultdict(list)` with appends, and plain assignment)
  preserve key insertion order; they are modelled as association lists with
  `addToGroups` (append to an existing key, else push a new key at the end)
  and `setGroup` (replace the value of an existing key in place, else push).
* `list.sort(key=...)` is Python's stable sort; it is modelled by a stable
  insertion sort `stableSort`.
* Python `while` loops are modelled with an explicit fuel argument that is
  an upper bound on the possible number of iterations, so every definition
  is structurally recursive and executable by `decide`.
* Person objects compare by identity in Python; in the embedding they are
  values of a structure with decidable equality.  Where a theorem needs
  travelers to be pairwise distinct objects it takes a `Nodup` hypothesis.
-/

namespace Carpool

open scoped List

/-- `datetime.min` as epoch seconds (0001-01-01 00:00:00); the sentinel of
`Person.safe_parse_datetime` for missing/unparsable date-time fields.  It is
divisible by 86400. -/
def datetimeMin : Int := -62135596800

/-- Result of `Person.parse_flight_info` (givetochat1_6.py lines 91-113):
flight number, clock time (seconds after midnight) and city.  When the
regex does not match, or the time cannot be parsed, the function returns
the record `noFlightInfo` below — note that the `Time` entry is then
`time.min` (midnight), not `None`. -/
structure FlightInfo where
  flightNumber : String
  time : Int
  city : String
deriving DecidableEq, Repr, Inhabited

/-- `parse_flight_info` on an unparsable flight string:
`{"Flight Number": "NoFlightNum", "Time": time.min, "City": "NoCity"}`
(givetochat1_6.py lines 94-95 and 112-113; also 108-109 for a bad time). -/
def noFlightInfo : FlightInfo := ⟨"NoFlightNum", 0, "NoCity"⟩

/-- A traveler, as built by `Person.__init__` (givetochat1_6.py lines 7-78).
Date-times are epoch seconds (see the module conventions above). -/
structure Person where
  name : String
  app : String
  role : String
  hotel : String
  location : String
  has_rental_car : Bool
  given_rental_car : Bool
  begin_onsite : Int
  end_onsite : Int
  depart_date : Int
  return_date : Int
  personalHotel : Bool
  personalAirport : Bool
  arrival_flight : FlightInfo
  return_flight : FlightInfo
  arrival_dt : Option Int
  return_dt : Option Int
deriving DecidableEq, Repr, Inhabited

/-- `Person.__init__` lines 68-73: since `parse_flight_info` never returns a
`None` time, `arrival_dt = datetime.combine(depart_date.date(), Time)`, i.e.
midnight of the departure date plus the flight's clock time; an unparsable
flight contributes the sentinel `time.min = 0`, giving plain midnight. -/
def mkArrivalDt (departDate : Int) (fi : FlightInfo) : Option Int :=
  some ((departDate / 86400) * 86400 + fi.time)

/-- The `special(p)` predicate used identically in `go_live_carpooling.py`
(lines 78-79) and inline in `Parser.ride_to_hotel` (line 238),
`Parser.ride_to_support` (line 280) and `Parser.ride_to_airport` (line 305):
`p.app in ("ID", "IE") or any(kw in p.name.lower() for kw in ("emeritus", "exemplar"))`. -/
def strContainsAux (needle : List Char) : List Char → Bool
  | [] => needle.isEmpty
  | c :: rest => needle.isPrefixOf (c :: rest) || strContainsAux needle rest

/-- Python's substring test `sub in s`. -/
def strContains (s sub : String) : Bool :=
  strContainsAux sub.data s.data

/-- Python `str.lower()` (kernel-executable model of `String.toLower`). -/
def strLower (s : String) : String := String.mk (s.data.map Char.toLower)

/-- ASCII whitespace, as stripped by Python `str.strip()`. -/
def isWS (c : Char) : Bool := c == ' ' || c == '\t' || c == '\n' || c == '\r'

/-- Python `str.strip()` (kernel-executable model of `String.trim`). -/
def strTrim (s : String) : String :=
  String.mk (((s.data.dropWhile isWS).reverse.dropWhile isWS).reverse)

/-- Lexicographic string comparison by code point (kernel-executable model
of `String` `<`, the order Python uses to compare the sort-key strings). -/
def strLtAux : List Char → List Char → Bool
  | [], [] => false
  | [], _ :: _ => true
  | _ :: _, [] => false
  | a :: as, b :: bs =>
    if a.toNat < b.toNat then true
    else if b.toNat < a.toNat then false
    else strLtAux as bs

def strLt (x y : String) : Bool := strLtAux x.data y.data

/-- Special-traveler predicate (reserved affiliation codes or reserved name
keywords). -/
def special (p : Person) : Bool :=
  p.app == "ID" || p.app == "IE" ||
    strContains (strLower p.name) "emeritus" || strContains (strLower p.name) "exemplar"

/-- A driver in go-live mode: `p.has_rental_car or p.given_rental_car`
(go_live_carpooling.py line 23). -/
def isGoLiveDriver (p : Person) : Bool :=
  p.has_rental_car || p.given_rental_car

/-! ### Stable sort (model of Python `list.sort(key=...)`) -/

/-- Insert `x` after every element `y` of the (already sorted) list with
`le y x`; used by `stableSort`. -/
def insSorted (le : α → α → Bool) (x : α) : List α → List α
  | [] => [x]
  | y :: ys => if le y x then y :: insSorted le x ys else x :: y :: ys

/-- Stable insertion sort: elements comparing equal keep their input order,
like Python's `list.sort`. -/
def stableSort (le : α → α → Bool) (l : List α) : List α :=
  l.foldl (fun acc x => insSorted le x acc) []

theorem insSorted_perm (le : α → α → Bool) (x : α) (l : List α) :
    insSorted le x l ~ x :: l := by
  induction l with
  | nil => simp [insSorted]
  | cons y ys ih =>
    simp only [insSorted]
    split
    · exact ((ih.cons y).trans (List.Perm.swap x y ys))
    · exact List.Perm.refl _

theorem stableSort_perm (le : α → α → Bool) (l : List α) :
    stableSort le l ~ l := by
  suffices h : ∀ acc : List α, List.foldl (fun acc x => insSorted le x acc) acc l ~ acc ++ l by
    simpa using h []
  induction l with
  | nil => intro acc; simp
  | cons x xs ih =>
    intro acc
    calc List.foldl (fun acc x => insSorted le x acc) (insSorted le x acc) xs
        ~ insSorted le x acc ++ xs := ih _
      _ ~ (x :: acc) ++ xs := (insSorted_perm le x acc).append_right xs
      _ ~ acc ++ x :: xs := by
          simpa using (@List.perm_middle _ x acc xs).symm

theorem mem_stableSort (le : α → α → Bool) {x : α} {l : List α} (h : x ∈ l) :
    x ∈ stableSort le l :=
  (stableSort_perm le l).mem_iff.mpr h

/-! ### Association-list model of `defaultdict(list)` -/

/-- `groups[key].append(p)` on a `defaultdict(list)`: append to the existing
bucket, else create a new bucket at the end (dict insertion order). -/
def addToGroups : List (String × List Person) → String → Person → List (String × List Person)
  | [], k, p => [(k, [p])]
  | (k', ps) :: rest, k, p =>
      if k' == k then (k', ps ++ [p]) :: rest else (k', ps) :: addToGroups rest k p

/-- `groups[key] = v` on a dict: replace in place, else push at the end. -/
def setGroup : List (String × List Person) → String → List Person → List (String × List Person)
  | [], k, v => [(k, v)]
  | (k', v') :: rest, k, v =>
      if k' == k then (k', v) :: rest else (k', v') :: setGroup rest k v

/-- All bucket contents, concatenated in key order. -/
def groupsFlatten (gs : List (String × List Person)) : List Person :=
  gs.flatMap (fun g => g.2)

/-- Build the `defaultdict` by one pass over the travelers, each keyed by
`key`. -/
def groupBy (key : Person → String) (people : List Person) :
    List (String × List Person) :=
  people.foldl (fun gs p => addToGroups gs (key p) p) []

theorem groupsFlatten_addToGroups (gs : List (String × List Person)) (k : String) (p : Person) :
    groupsFlatten (addToGroups gs k p) ~ groupsFlatten gs ++ [p] := by
  induction gs with
  | nil => simp [addToGroups, groupsFlatten]
  | cons g rest ih =>
    obtain ⟨k', ps⟩ := g
    by_cases hk : (k' == k) = true
    · simp [addToGroups, hk, groupsFlatten, List.append_assoc]
      exact (@List.perm_append_comm _ [p] (rest.flatMap (fun g => g.2))).append_left ps
    · simp only [addToGroups, hk, if_false, Bool.false_eq_true, groupsFlatten, List.flatMap_cons]
      calc ps ++ (addToGroups rest k p).flatMap (fun g => g.2)
          ~ ps ++ (rest.flatMap (fun g => g.2) ++ [p]) := (ih).append_left ps
        _ = (ps ++ rest.flatMap (fun g => g.2)) ++ [p] := by simp [List.append_assoc]

theorem groupsFlatten_foldl (people : List Person) (key : Person → String) :
    ∀ gs0 : List (String × List Person),
      groupsFlatten (people.foldl (fun gs p => addToGroups gs (key p) p) gs0) ~
        groupsFlatten gs0 ++ people := by
  induction people with
  | nil => intro gs0; simp
  | cons p ps ih =>
    intro gs0
    calc groupsFlatten (ps.foldl (fun gs q => addToGroups gs (key q) q) (addToGroups gs0 (key p) p))
        ~ groupsFlatten (addToGroups gs0 (key p) p) ++ ps := ih _
      _ ~ (groupsFlatten gs0 ++ [p]) ++ ps :=
          (groupsFlatten_addToGroups gs0 (key p) p).append_right ps
      _ = groupsFlatten gs0 ++ (p :: ps) := by simp

/-- Grouping is conservative: the buckets' union is a permutation of the
input. -/
theorem groupBy_perm (key : Person → String) (people : List Person) :
    groupsFlatten (groupBy key people) ~ people := by
  simpa using groupsFlatten_foldl people key []

/-- Convert a multiset identity into a list permutation; used to discharge
the permutation-juggling steps below with `abel`. -/
theorem perm_of_coe {l₁ l₂ : List α} (h : (↑l₁ : Multiset α) = ↑l₂) : l₁ ~ l₂ :=
  Multiset.coe_eq_coe.mp h

theorem coe_of_perm {l₁ l₂ : List α} (h : l₁ ~ l₂) : (↑l₁ : Multiset α) = ↑l₂ :=
  Multiset.coe_eq_coe.mpr h

/-! ### Capacity bin-packing engine: `_assign_with_app_preference`
(cabpool.py lines 39-91) -/

/-- Step 2 of `_assign_with_app_preference` for one app bucket, acting on the
reversed bucket (the Python `while len(bucket) >= 3: [bucket.pop() for _ in
range(3)]` pops from the end, so the extracted trios — and the final leftover
pair or single, also popped from the end — are consecutive runs of the
reversed bucket).  Returns (full trios, pair leftovers, single leftovers);
the last two have at most one entry per bucket. -/
def splitBucketRev : List Person → List (List Person) × List (List Person) × List Person
  | [] => ([], [], [])
  | [a] => ([], [], [a])
  | [a, b] => ([], [[a, b]], [])
  | a :: b :: c :: rest =>
      let r := splitBucketRev rest
      ([a, b, c] :: r.1, r.2.1, r.2.2)

/-- Trio/pair/single extraction from one app bucket (cabpool.py lines 63-72). -/
def splitBucket (b : List Person) : List (List Person) × List (List Person) × List Person :=
  splitBucketRev b.reverse

/-- Step 3 of `_assign_with_app_preference` (cabpool.py lines 75-82): walk
the pair leftovers in order; while single leftovers remain, pop a single off
the END of the singles list and make a triple `pair + [single]`; pairs left
over when the singles run out stay as 2-person cabs.  The singles are passed
REVERSED (so popping from the end is taking the head); returns
(triples made, leftover pairs, remaining reversed singles). -/
def combinePairsAux : List (List Person) → List Person →
    List (List Person) × List (List Person) × List Person
  | [], revSingles => ([], [], revSingles)
  | pr :: rest, [] =>
      let r := combinePairsAux rest []
      (r.1, pr :: r.2.1, r.2.2)
  | pr :: rest, s :: srest =>
      let r := combinePairsAux rest srest
      ((pr ++ [s]) :: r.1, r.2.1, r.2.2)

/-- Step 4 of `_assign_with_app_preference` (cabpool.py lines 85-89):
sequential chunks of up to 3 travelers. -/
def chunks3 : List Person → List (List Person)
  | [] => []
  | [a] => [[a]]
  | [a, b] => [[a, b]]
  | a :: b :: c :: rest => [a, b, c] :: chunks3 rest

/-- `_assign_with_app_preference(people)` (cabpool.py lines 39-91): split a
predefined group into sub-cabs of size ≤ 3, keeping same-`app` riders
together when possible.  Buckets are keyed by `app` in first-occurrence
order (`defaultdict`), trios of one app first, then pair+single
cross-app triples, then leftover pairs, then chunks of leftover singles. -/
def assignWithAppPreference (people : List Person) : List (List Person) :=
  if people.length = 0 then []
  else if people.length ≤ 3 then [people]
  else
    let buckets := groupBy (fun p => p.app) people
    let parts := buckets.map (fun b => splitBucket b.2)
    let cab_units := parts.flatMap (fun x => x.1)
    let pairs := parts.flatMap (fun x => x.2.1)
    let singles := parts.flatMap (fun x => x.2.2)
    let comb := combinePairsAux pairs singles.reverse
    cab_units ++ comb.1 ++ comb.2.1 ++ chunks3 comb.2.2.reverse

theorem splitBucketRev_perm (l : List Person) :
    (splitBucketRev l).1.flatten ++ (splitBucketRev l).2.1.flatten ++ (splitBucketRev l).2.2 ~ l := by
  induction l using splitBucketRev.induct with
  | case1 => simp [splitBucketRev]
  | case2 a => simp [splitBucketRev]
  | case3 a b => simp [splitBucketRev]
  | case4 a b c rest ih =>
    show ([a, b, c] :: (splitBucketRev rest).1).flatten ++ (splitBucketRev rest).2.1.flatten ++
        (splitBucketRev rest).2.2 ~ a :: b :: c :: rest
    rw [List.perm_iff_count]
    intro x
    have h := List.perm_iff_count.mp ih x
    simp only [List.flatten_cons, List.count_append, List.count_cons, List.count_nil] at h ⊢
    omega

theorem splitBucket_perm (b : List Person) :
    (splitBucket b).1.flatten ++ (splitBucket b).2.1.flatten ++ (splitBucket b).2.2 ~ b := by
  unfold splitBucket
  exact (splitBucketRev_perm b.reverse).trans (List.reverse_perm b)

theorem combinePairsAux_perm (prs : List (List Person)) (sng : List Person) :
    (combinePairsAux prs sng).1.flatten ++ (combinePairsAux prs sng).2.1.flatten ++
      (combinePairsAux prs sng).2.2 ~ prs.flatten ++ sng := by
  induction prs generalizing sng with
  | nil => simp [combinePairsAux]
  | cons pr rest ih =>
    cases sng with
    | nil =>
      show (combinePairsAux rest []).1.flatten ++ (pr :: (combinePairsAux rest []).2.1).flatten ++
          (combinePairsAux rest []).2.2 ~ (pr :: rest).flatten ++ []
      rw [List.perm_iff_count]
      intro x
      have h := List.perm_iff_count.mp (ih []) x
      simp only [List.flatten_cons, List.count_append, List.count_nil] at h ⊢
      omega
    | cons s srest =>
      show ((pr ++ [s]) :: (combinePairsAux rest srest).1).flatten ++
          (combinePairsAux rest srest).2.1.flatten ++ (combinePairsAux rest srest).2.2 ~
          (pr :: rest).flatten ++ (s :: srest)
      rw [List.perm_iff_count]
      intro x
      have h := List.perm_iff_count.mp (ih srest) x
      simp only [List.flatten_cons, List.count_append, List.count_cons, List.count_nil] at h ⊢
      omega

theorem chunks3_flatten (l : List Person) : (chunks3 l).flatten = l := by
  induction l using chunks3.induct with
  | case1 => simp [chunks3]
  | case2 a => simp [chunks3]
  | case3 a b => simp [chunks3]
  | case4 a b c rest ih => simp [chunks3, ih]

/-- The three component streams of the per-bucket split, concatenated
across the buckets, are a permutation of all bucket members. -/
theorem buckets_tripartite_perm (bs : List (String × List Person)) :
    ((bs.map (fun b => splitBucket b.2)).flatMap (fun x => x.1)).flatten ++
      ((bs.map (fun b => splitBucket b.2)).flatMap (fun x => x.2.1)).flatten ++
      (bs.map (fun b => splitBucket b.2)).flatMap (fun x => x.2.2) ~
      groupsFlatten bs := by
  induction bs with
  | nil => simp [groupsFlatten]
  | cons b rest ih =>
    rw [List.perm_iff_count]
    intro x
    have h1 := List.perm_iff_count.mp (splitBucket_perm b.2) x
    have h2 := List.perm_iff_count.mp ih x
    simp only [groupsFlatten, List.map_cons, List.flatMap_cons, List.flatten_append,
      List.count_append] at h1 h2 ⊢
    omega

/-- Assembly step of the bin-packing conservation proof, over abstract
component lists. -/
theorem assemble_perm (A prs : List (List Person)) (sng R : List Person)
    (htri : A.flatten ++ prs.flatten ++ sng ~ R) :
    (A ++ (combinePairsAux prs sng.reverse).1 ++ (combinePairsAux prs sng.reverse).2.1 ++
      chunks3 (combinePairsAux prs sng.reverse).2.2.reverse).flatten ~ R := by
  refine List.Perm.trans ?_ htri
  rw [List.perm_iff_count]
  intro x
  have h1 := List.perm_iff_count.mp (combinePairsAux_perm prs sng.reverse) x
  have h2 := List.perm_iff_count.mp
    (List.reverse_perm (combinePairsAux prs sng.reverse).2.2) x
  have h3 := List.perm_iff_count.mp (List.reverse_perm sng) x
  simp only [List.flatten_append, chunks3_flatten, List.count_append] at h1 h2 h3 ⊢
  omega

/-- Conservation of the bin-packing engine: the sub-cabs' occupants are a
permutation of the input group — no traveler duplicated or dropped. -/
theorem assignWithAppPreference_perm (people : List Person) :
    (assignWithAppPreference people).flatten ~ people := by
  unfold assignWithAppPreference
  by_cases h0 : people.length = 0
  · simp [h0, List.eq_nil_of_length_eq_zero h0]
  · by_cases h3 : people.length ≤ 3
    · simp [h0, h3]
    · simp only [h0, h3, if_false]
      exact assemble_perm _ _ _ _
        ((buckets_tripartite_perm (groupBy (fun p => p.app) people)).trans
          (groupBy_perm (fun p => p.app) people))

/-! ### Structure of the bin-packing output on a single-app cohort (for the
minimality property) -/

theorem addToGroups_same (a : String) (acc : List Person) (p : Person) :
    addToGroups [(a, acc)] a p = [(a, acc ++ [p])] := by
  simp [addToGroups]

theorem foldl_addToGroups_const (a : String) :
    ∀ (ppl : List Person) (acc : List Person), (∀ p ∈ ppl, p.app = a) →
      ppl.foldl (fun gs p => addToGroups gs p.app p) [(a, acc)] = [(a, acc ++ ppl)] := by
  intro ppl
  induction ppl with
  | nil => intro acc _; simp
  | cons p rest ih =>
    intro acc h
    have hp : p.app = a := h p (List.mem_cons_self p rest)
    have hrest : ∀ q ∈ rest, q.app = a := fun q hq => h q (List.mem_cons_of_mem p hq)
    simp only [List.foldl_cons, hp, addToGroups_same]
    rw [ih (acc ++ [p]) hrest]
    simp

/-- A nonempty cohort in which everyone shares the affiliation `a` produces a
single `app` bucket containing the whole cohort. -/
theorem groupBy_const (a : String) (p : Person) (rest : List Person)
    (h : ∀ q ∈ p :: rest, q.app = a) :
    groupBy (fun q => q.app) (p :: rest) = [(a, p :: rest)] := by
  have hp : p.app = a := h p (List.mem_cons_self p rest)
  have hrest : ∀ q ∈ rest, q.app = a := fun q hq => h q (List.mem_cons_of_mem p hq)
  unfold groupBy
  simp only [List.foldl_cons]
  have h0 : addToGroups [] p.app p = [(a, [p])] := by simp [addToGroups, hp]
  rw [h0, foldl_addToGroups_const a rest [p] hrest]
  simp

/-- Counting structure of the per-bucket split: `⌊n/3⌋` trios of size exactly
3, one pair leftover iff `n % 3 = 2`, one single leftover iff `n % 3 = 1`. -/
theorem splitBucketRev_counts (l : List Person) :
    (splitBucketRev l).1.length = l.length / 3 ∧
      (∀ t ∈ (splitBucketRev l).1, t.length = 3) ∧
      (splitBucketRev l).2.1.length = (if l.length % 3 = 2 then 1 else 0) ∧
      (∀ t ∈ (splitBucketRev l).2.1, t.length = 2) ∧
      (splitBucketRev l).2.2.length = (if l.length % 3 = 1 then 1 else 0) := by
  induction l using splitBucketRev.induct with
  | case1 => simp [splitBucketRev]
  | case2 a => simp [splitBucketRev]
  | case3 a b => simp [splitBucketRev]
  | case4 a b c rest ih =>
    obtain ⟨h1, h2, h3, h4, h5⟩ := ih
    refine ⟨?_, ?_, ?_, ?_, ?_⟩
    · show ([a, b, c] :: (splitBucketRev rest).1).length = (a :: b :: c :: rest).length / 3
      simp only [List.length_cons, h1]
      omega
    · show ∀ t ∈ ([a, b, c] :: (splitBucketRev rest).1), t.length = 3
      intro t ht
      rcases List.mem_cons.mp ht with h | h
      · subst h; rfl
      · exact h2 t h
    · show (splitBucketRev rest).2.1.length =
        (if (a :: b :: c :: rest).length % 3 = 2 then 1 else 0)
      rw [h3]
      simp only [List.length_cons]
      have e : rest.length + 1 + 1 + 1 = rest.length + 3 := by omega
      simp only [e, Nat.add_mod_right]
    · show ∀ t ∈ (splitBucketRev rest).2.1, t.length = 2
      exact h4
    · show (splitBucketRev rest).2.2.length =
        (if (a :: b :: c :: rest).length % 3 = 1 then 1 else 0)
      rw [h5]
      simp only [List.length_cons]
      have e : rest.length + 1 + 1 + 1 = rest.length + 3 := by omega
      simp only [e, Nat.add_mod_right]

/-- On a single-affiliation cohort of more than 3 travelers, the bin-packing
pipeline reduces to the single bucket's split. -/
theorem assignWAP_single (people : List Person) (a : String)
    (happ : ∀ p ∈ people, p.app = a) (h4 : 3 < people.length) :
    assignWithAppPreference people =
      (splitBucket people).1
        ++ (combinePairsAux (splitBucket people).2.1 (splitBucket people).2.2.reverse).1
        ++ (combinePairsAux (splitBucket people).2.1 (splitBucket people).2.2.reverse).2.1
        ++ chunks3
          (combinePairsAux (splitBucket people).2.1 (splitBucket people).2.2.reverse).2.2.reverse := by
  obtain ⟨p, rest, rfl⟩ : ∃ p rest, people = p :: rest := by
    cases people with
    | nil => simp at h4
    | cons p rest => exact ⟨p, rest, rfl⟩
  unfold assignWithAppPreference
  rw [if_neg (by simp), if_neg (by omega)]
  rw [show groupBy (fun q => q.app) (p :: rest) = [(a, p :: rest)] from groupBy_const a p rest happ]
  simp

theorem splitBucket_counts (people : List Person) :
    (splitBucket people).1.length = people.length / 3 ∧
      (∀ t ∈ (splitBucket people).1, t.length = 3) ∧
      (splitBucket people).2.1.length = (if people.length % 3 = 2 then 1 else 0) ∧
      (∀ t ∈ (splitBucket people).2.1, t.length = 2) ∧
      (splitBucket people).2.2.length = (if people.length % 3 = 1 then 1 else 0) := by
  have h := splitBucketRev_counts people.reverse
  simpa [splitBucket] using h

theorem assignWAP_shape_mod0 (people : List Person) (a : String)
    (happ : ∀ p ∈ people, p.app = a) (h4 : 3 < people.length)
    (hm : people.length % 3 = 0) :
    assignWithAppPreference people = (splitBucket people).1 := by
  obtain ⟨-, -, hp, -, hs⟩ := splitBucket_counts people
  rw [hm] at hp hs
  simp only [if_neg (by omega : ¬(0 : Nat) = 2)] at hp
  simp only [if_neg (by omega : ¬(0 : Nat) = 1)] at hs
  have hp' : (splitBucket people).2.1 = [] := List.length_eq_zero.mp hp
  have hs' : (splitBucket people).2.2 = [] := List.length_eq_zero.mp hs
  rw [assignWAP_single people a happ h4, hp', hs']
  simp [combinePairsAux, chunks3]

theorem assignWAP_shape_mod2 (people : List Person) (a : String)
    (happ : ∀ p ∈ people, p.app = a) (h4 : 3 < people.length)
    (hm : people.length % 3 = 2) :
    ∃ pr : List Person, pr.length = 2 ∧
      assignWithAppPreference people = (splitBucket people).1 ++ [pr] := by
  obtain ⟨-, -, hp, hp2, hs⟩ := splitBucket_counts people
  rw [hm] at hp hs
  simp only [if_pos rfl] at hp
  simp only [if_neg (by omega : ¬(2 : Nat) = 1)] at hs
  obtain ⟨pr, hpr⟩ := List.length_eq_one.mp hp
  have hs' : (splitBucket people).2.2 = [] := List.length_eq_zero.mp hs
  refine ⟨pr, hp2 pr (by rw [hpr]; exact List.mem_singleton_self pr), ?_⟩
  rw [assignWAP_single people a happ h4, hpr, hs']
  simp [combinePairsAux, chunks3]

theorem assignWAP_shape_mod1 (people : List Person) (a : String)
    (happ : ∀ p ∈ people, p.app = a) (h4 : 3 < people.length)
    (hm : people.length % 3 = 1) :
    ∃ s : Person,
      assignWithAppPreference people = (splitBucket people).1 ++ [[s]] := by
  obtain ⟨-, -, hp, -, hs⟩ := splitBucket_counts people
  rw [hm] at hp hs
  simp only [if_neg (by omega : ¬(1 : Nat) = 2)] at hp
  simp only [if_pos rfl] at hs
  obtain ⟨s, hsv⟩ := List.length_eq_one.mp hs
  have hp' : (splitBucket people).2.1 = [] := List.length_eq_zero.mp hp
  refine ⟨s, ?_⟩
  rw [assignWAP_single people a happ h4, hp', hsv]
  simp [combinePairsAux, chunks3]

/-- C5, packaged as a helper statement for the claim theorem below. -/
theorem binpack_minimality_helper (people : List Person) (a : String)
    (happ : ∀ p ∈ people, p.app = a) :
    ((people.length % 3 = 0 ∨ people.length % 3 = 2) →
       (assignWithAppPreference people).length = (people.length + 2) / 3 ∧
       ∀ g ∈ assignWithAppPreference people, 2 ≤ g.length) ∧
    (people.length % 3 = 1 → 3 < people.length →
       (assignWithAppPreference people).countP (fun g => g.length == 3) = people.length / 3 ∧
       (assignWithAppPreference people).countP (fun g => g.length == 1) = 1 ∧
       (assignWithAppPreference people).length = people.length / 3 + 1) := by
  obtain ⟨ht0, ht3, -, -, -⟩ := splitBucket_counts people
  by_cases h4 : 3 < people.length
  · constructor
    · intro hres
      rcases hres with hm | hm
      · rw [assignWAP_shape_mod0 people a happ h4 hm]
        refine ⟨by rw [ht0]; omega, ?_⟩
        intro g hg
        rw [ht3 g hg]; omega
      · obtain ⟨pr, hpr2, hshape⟩ := assignWAP_shape_mod2 people a happ h4 hm
        rw [hshape]
        constructor
        · simp only [List.length_append, List.length_cons, List.length_nil, ht0]
          omega
        · intro g hg
          rcases List.mem_append.mp hg with h | h
          · rw [ht3 g h]; omega
          · rw [List.mem_singleton.mp h, hpr2]
    · intro hm h4'
      obtain ⟨s, hshape⟩ := assignWAP_shape_mod1 people a happ h4 hm
      rw [hshape]
      have hall3 : (splitBucket people).1.countP (fun g => g.length == 3) =
          (splitBucket people).1.length := by
        rw [List.countP_eq_length]
        intro g hg
        simp [ht3 g hg]
      have hall3' : (splitBucket people).1.countP (fun g => g.length == 1) = 0 := by
        rw [List.countP_eq_zero]
        intro g hg
        simp [ht3 g hg]
      refine ⟨?_, ?_, ?_⟩
      · rw [List.countP_append, hall3, ht0]
        simp [List.countP_cons]
      · rw [List.countP_append, hall3']
        simp [List.countP_cons]
      · simp only [List.length_append, List.length_cons, List.length_nil, ht0]
  · constructor
    · intro hres
      by_cases h0 : people.length = 0
      · have : people = [] := List.eq_nil_of_length_eq_zero h0
        subst this
        simp [assignWithAppPreference]
      · have hshape : assignWithAppPreference people = [people] := by
          unfold assignWithAppPreference
          rw [if_neg h0, if_pos (by omega)]
        rw [hshape]
        have hn : people.length = 2 ∨ people.length = 3 := by omega
        constructor
        · simp only [List.length_cons, List.length_nil]
          omega
        · intro g hg
          rw [List.mem_singleton.mp hg]
          omega
    · intro _ h4'
      omega

/-! ### Driver-passenger round-robin engine
(`assign_carpool_passengers`, go_live_carpooling.py lines 10-57, and
`simple_assign_passengers`, team_trip_carpooling.py lines 18-71; the two
loops are identical except for the driver predicate). -/

/-- State of the passenger loop: per-driver passenger lists (positional,
mirroring `driver_slots` keyed by object identity), the rotating
`driver_index` cursor, and the passengers that could not be assigned (those
for which the Python code prints a capacity warning). -/
structure RRState where
  slots : List (List Person)
  cursor : Nat
  unseated : List Person
deriving DecidableEq, Repr

/-- One scan of `for i in range(len(drivers)): d = drivers[(driver_index + i)
% len(drivers)] ...`: the first position (in rotation order starting at
`cursor`) whose driver satisfies `pred` and has fewer than 2 passengers. -/
def findOpenDriver (drivers : List Person) (slots : List (List Person)) (cursor : Nat)
    (pred : Person → Bool) : Option Nat :=
  ((List.range drivers.length).map (fun i => (cursor + i) % drivers.length)).find?
    (fun j => pred (drivers.getD j default) && decide ((slots.getD j []).length < 2))

/-- Body of the per-passenger loop: pass 1 looks for a same-`app` driver with
an open slot, pass 2 for any driver with an open slot; on success the
passenger is appended to that driver's list and the cursor moves just past
the filled driver; otherwise the passenger is recorded as unseated
(warning). -/
def assignOnePassenger (drivers : List Person) (st : RRState) (pax : Person) : RRState :=
  match findOpenDriver drivers st.slots st.cursor (fun d => d.app == pax.app) with
  | some j => ⟨st.slots.set j (st.slots.getD j [] ++ [pax]), (j + 1) % drivers.length, st.unseated⟩
  | none =>
    match findOpenDriver drivers st.slots st.cursor (fun _ => true) with
    | some j => ⟨st.slots.set j (st.slots.getD j [] ++ [pax]), (j + 1) % drivers.length, st.unseated⟩
    | none => ⟨st.slots, st.cursor, st.unseated ++ [pax]⟩

/-- The round-robin assignment loop over one cohort, given its drivers and
passenger candidates.  Returns the driver → passengers association (in
driver order, like the Python dict) and the unseated passengers.  When the
cohort has no drivers the Python code skips the loop (`assignments[key]`
stays an empty dict); everyone is then unseated. -/
def roundRobinAssign (drivers passengers : List Person) :
    List (Person × List Person) × List Person :=
  if drivers.isEmpty then ([], passengers)
  else
    let final := passengers.foldl (assignOnePassenger drivers)
      ⟨drivers.map (fun _ => []), 0, []⟩
    (drivers.zip final.slots, final.unseated)

/-- `assign_carpool_passengers` on one cohort (go_live_carpooling.py lines
18-56): drivers are those with `has_rental_car or given_rental_car`. -/
def assign_carpool_group (people : List Person) : List (Person × List Person) × List Person :=
  roundRobinAssign (people.filter isGoLiveDriver) (people.filter (fun p => !isGoLiveDriver p))

/-- `simple_assign_passengers` on one cohort (team_trip_carpooling.py lines
30-70): drivers are those with `has_rental_car` only. -/
def simple_assign_group (people : List Person) : List (Person × List Person) × List Person :=
  roundRobinAssign (people.filter (fun p => p.has_rental_car))
    (people.filter (fun p => !p.has_rental_car))

/-- `assign_carpool_passengers(groups)` (go_live_carpooling.py lines 10-57),
keeping only the dict it returns. -/
def assign_carpool_passengers (groups : List (String × List Person)) :
    List (String × List (Person × List Person)) :=
  groups.map (fun g => (g.1, (assign_carpool_group g.2).1))

theorem findOpenDriver_lt {drivers : List Person} {slots : List (List Person)}
    {cursor : Nat} {pred : Person → Bool} {j : Nat}
    (h : findOpenDriver drivers slots cursor pred = some j) : j < drivers.length := by
  have hmem := List.mem_of_find?_eq_some h
  obtain ⟨i, hi, hij⟩ := List.mem_map.mp hmem
  have hn : 0 < drivers.length := by
    rcases Nat.eq_zero_or_pos drivers.length with h0 | h0
    · rw [h0] at hi; simp at hi
    · exact h0
  rw [← hij]
  exact Nat.mod_lt _ hn

theorem flatten_set_append (slots : List (List Person)) (j : Nat) (x : Person)
    (hj : j < slots.length) :
    (slots.set j ((slots.getD j []) ++ [x])).flatten ~ x :: slots.flatten := by
  induction slots generalizing j with
  | nil => simp at hj
  | cons s rest ih =>
    cases j with
    | zero =>
      simp only [List.set_cons_zero, List.getD_cons_zero, List.flatten_cons, List.append_assoc]
      exact List.perm_middle
    | succ j' =>
      have hj' : j' < rest.length := by simpa using hj
      simp only [List.set_cons_succ, List.getD_cons_succ, List.flatten_cons]
      calc s ++ (rest.set j' (rest.getD j' [] ++ [x])).flatten
          ~ s ++ (x :: rest.flatten) := (ih j' hj').append_left s
        _ ~ x :: (s ++ rest.flatten) := List.perm_middle

theorem flatten_map_nil (l : List Person) :
    (l.map (fun _ => ([] : List Person))).flatten = [] := by
  induction l with
  | nil => rfl
  | cons p rest ih => simp [ih]

theorem rr_fold_invariant (drivers : List Person) :
    ∀ (passengers : List Person) (st : RRState),
      st.slots.length = drivers.length →
      (passengers.foldl (assignOnePassenger drivers) st).slots.length = drivers.length ∧
      (passengers.foldl (assignOnePassenger drivers) st).slots.flatten ++
          (passengers.foldl (assignOnePassenger drivers) st).unseated ~
        st.slots.flatten ++ st.unseated ++ passengers := by
  intro passengers
  induction passengers with
  | nil => intro st hlen; exact ⟨hlen, by simp⟩
  | cons pax rest ih =>
    intro st hlen
    have hstep : ∀ st' : RRState, assignOnePassenger drivers st pax = st' →
        st'.slots.length = drivers.length ∧
        st'.slots.flatten ++ st'.unseated ~ (st.slots.flatten ++ st.unseated) ++ [pax] := by
      intro st' hst'
      unfold assignOnePassenger at hst'
      rcases hfind : findOpenDriver drivers st.slots st.cursor (fun d => d.app == pax.app) with
        _ | j
      · rw [hfind] at hst'
        rcases hfind2 : findOpenDriver drivers st.slots st.cursor (fun _ => true) with _ | j
        · rw [hfind2] at hst'
          subst hst'
          refine ⟨hlen, ?_⟩
          simp [List.append_assoc]
        · rw [hfind2] at hst'
          subst hst'
          have hj : j < st.slots.length := hlen ▸ findOpenDriver_lt hfind2
          refine ⟨by simpa using hlen, ?_⟩
          calc (st.slots.set j (st.slots.getD j [] ++ [pax])).flatten ++ st.unseated
              ~ (pax :: st.slots.flatten) ++ st.unseated :=
                (flatten_set_append st.slots j pax hj).append_right st.unseated
            _ ~ (st.slots.flatten ++ st.unseated) ++ [pax] := by
                calc (pax :: st.slots.flatten) ++ st.unseated
                    = pax :: (st.slots.flatten ++ st.unseated) := rfl
                  _ ~ (st.slots.flatten ++ st.unseated) ++ [pax] :=
                      (List.perm_append_singleton pax _).symm
      · rw [hfind] at hst'
        subst hst'
        have hj : j < st.slots.length := hlen ▸ findOpenDriver_lt hfind
        refine ⟨by simpa using hlen, ?_⟩
        calc (st.slots.set j (st.slots.getD j [] ++ [pax])).flatten ++ st.unseated
            ~ (pax :: st.slots.flatten) ++ st.unseated :=
              (flatten_set_append st.slots j pax hj).append_right st.unseated
          _ ~ (st.slots.flatten ++ st.unseated) ++ [pax] := by
              calc (pax :: st.slots.flatten) ++ st.unseated
                  = pax :: (st.slots.flatten ++ st.unseated) := rfl
                _ ~ (st.slots.flatten ++ st.unseated) ++ [pax] :=
                    (List.perm_append_singleton pax _).symm
    obtain ⟨hlen', hperm'⟩ := hstep _ rfl
    obtain ⟨hlen'', hperm''⟩ := ih (assignOnePassenger drivers st pax) hlen'
    refine ⟨by simpa [List.foldl_cons] using hlen'', ?_⟩
    calc ((pax :: rest).foldl (assignOnePassenger drivers) st).slots.flatten ++
          ((pax :: rest).foldl (assignOnePassenger drivers) st).unseated
        ~ (assignOnePassenger drivers st pax).slots.flatten ++
            (assignOnePassenger drivers st pax).unseated ++ rest := by
          simpa [List.foldl_cons] using hperm''
      _ ~ ((st.slots.flatten ++ st.unseated) ++ [pax]) ++ rest := hperm'.append_right rest
      _ ~ st.slots.flatten ++ st.unseated ++ (pax :: rest) := by
          simp [List.append_assoc]

/-- Conservation of the round-robin engine on one cohort: the driver list is
returned unchanged, and seated-plus-unseated passengers are a permutation of
the passenger candidates. -/
theorem roundRobinAssign_conservation (drivers passengers : List Person) :
    (roundRobinAssign drivers passengers).1.map Prod.fst = drivers ∧
      ((roundRobinAssign drivers passengers).1.map Prod.snd).flatten ++
          (roundRobinAssign drivers passengers).2 ~ passengers := by
  unfold roundRobinAssign
  by_cases hd : drivers.isEmpty
  · rw [if_pos hd]
    have : drivers = [] := List.isEmpty_iff.mp hd
    subst this
    exact ⟨rfl, by simp⟩
  · rw [if_neg hd]
    have hlen0 : (drivers.map (fun _ => ([] : List Person))).length = drivers.length := by
      simp
    obtain ⟨hlen, hperm⟩ := rr_fold_invariant drivers passengers
      ⟨drivers.map (fun _ => []), 0, []⟩ hlen0
    constructor
    · exact List.map_fst_zip drivers _ (by omega)
    · rw [List.map_snd_zip drivers _ (by omega)]
      refine hperm.trans ?_
      rw [flatten_map_nil]
      simp

/-- Per-cohort conservation for the go-live engine: every cohort member is a
driver, a seated passenger, or unseated, with no duplication. -/
theorem assign_carpool_group_conservation (people : List Person) :
    ((assign_carpool_group people).1.map Prod.fst ++
        ((assign_carpool_group people).1.map Prod.snd).flatten ++
        (assign_carpool_group people).2 ~ people) ∧
      (assign_carpool_group people).1.map Prod.fst = people.filter isGoLiveDriver := by
  unfold assign_carpool_group
  obtain ⟨hd, hp⟩ := roundRobinAssign_conservation (people.filter isGoLiveDriver)
    (people.filter (fun p => !isGoLiveDriver p))
  refine ⟨?_, hd⟩
  rw [List.append_assoc, hd]
  exact (hp.append_left _).trans (List.filter_append_perm isGoLiveDriver people)

/-- Per-cohort conservation for the team-trip engine. -/
theorem simple_assign_group_conservation (people : List Person) :
    ((simple_assign_group people).1.map Prod.fst ++
        ((simple_assign_group people).1.map Prod.snd).flatten ++
        (simple_assign_group people).2 ~ people) ∧
      (simple_assign_group people).1.map Prod.fst =
        people.filter (fun p => p.has_rental_car) := by
  unfold simple_assign_group
  obtain ⟨hd, hp⟩ := roundRobinAssign_conservation (people.filter (fun p => p.has_rental_car))
    (people.filter (fun p => !p.has_rental_car))
  refine ⟨?_, hd⟩
  rw [List.append_assoc, hd]
  exact (hp.append_left _).trans (List.filter_append_perm (fun p => p.has_rental_car) people)

/-! ### Temporal clustering engine: `Parser._cluster_by_time`
(givetochat1_6.py lines 171-218) -/

/-- `times_list(cluster)`: the timestamps of the cluster members whose
attribute is an actual datetime (`isinstance(dt, datetime)`); members with a
`None` attribute contribute nothing. -/
def timesList (attr : Person → Option Int) (c : List Person) : List Int :=
  c.filterMap attr

/-- `cluster_dist(c1, c2)` (lines 191-196): complete-linkage distance — the
maximum pairwise absolute time difference in seconds; `none` models
`float('inf')` when either cluster has no timestamps.  (`foldl max 0` over
the nonempty list of nonnegative differences equals Python's `max`.) -/
def clusterDist (attr : Person → Option Int) (c1 c2 : List Person) : Option Int :=
  let t1 := timesList attr c1
  let t2 := timesList attr c2
  if t1.isEmpty || t2.isEmpty then none
  else some ((t1.flatMap (fun a => t2.map (fun b => ((a - b).natAbs : Int)))).foldl max 0)

/-- The scan order of `for i in range(len(clusters)): for j in range(i+1,
len(clusters))`. -/
def pairList (n : Nat) : List (Nat × Nat) :=
  (List.range n).flatMap
    (fun i => (List.range n).filterMap (fun j => if i < j then some (i, j) else none))

/-- One comparison of the minimum search (lines 203-211): the running best is
replaced exactly when the candidate pair's distance is finite and strictly
smaller (`d < min_dist`, with `min_dist` initially infinite). -/
def betterCand (attr : Person → Option Int) (cs : List (List Person))
    (best : Option (Nat × Nat × Int)) (pr : Nat × Nat) : Option (Nat × Nat × Int) :=
  match clusterDist attr (cs.getD pr.1 []) (cs.getD pr.2 []) with
  | none => best
  | some d =>
    match best with
    | none => some (pr.1, pr.2, d)
    | some (i, j, d0) => if d < d0 then some (pr.1, pr.2, d) else some (i, j, d0)

/-- The closest pair of clusters, if any pair is at finite distance. -/
def findClosestPair (attr : Person → Option Int) (cs : List (List Person)) :
    Option (Nat × Nat × Int) :=
  (pairList cs.length).foldl (betterCand attr cs) none

/-- `clusters[i].extend(clusters[j]); del clusters[j]` (lines 214-216). -/
def mergeAt (cs : List (List Person)) (i j : Nat) : List (List Person) :=
  (cs.set i (cs.getD i [] ++ cs.getD j [])).eraseIdx j

/-- One iteration of the `while merged` loop: merge the closest pair if its
distance is within the threshold, else stop (`none`). -/
def clusterStep (attr : Person → Option Int) (thresh : Int) (cs : List (List Person)) :
    Option (List (List Person)) :=
  match findClosestPair attr cs with
  | none => none
  | some (i, j, d) => if d ≤ thresh then some (mergeAt cs i j) else none

/-- The `while merged` loop with fuel; each iteration removes one cluster, so
fuel `= travelers.length` never runs out before the loop stops by itself. -/
def clusterLoop (attr : Person → Option Int) (thresh : Int) :
    Nat → List (List Person) → List (List Person)
  | 0, cs => cs
  | fuel + 1, cs =>
    match clusterStep attr thresh cs with
    | none => cs
    | some cs2 => clusterLoop attr thresh fuel cs2

/-- `Parser._cluster_by_time(travelers, attribute, threshold_hours)`, with
the threshold already converted to seconds (`thresh = threshold_hours *
3600`, line 199). -/
def cluster_by_time (attr : Person → Option Int) (travelers : List Person)
    (threshSec : Int) : List (List Person) :=
  clusterLoop attr threshSec travelers.length (travelers.map (fun p => [p]))

theorem pairList_bounds {n : Nat} {i j : Nat} (h : (i, j) ∈ pairList n) :
    i < j ∧ j < n := by
  unfold pairList at h
  obtain ⟨a, ha, hmem⟩ := List.mem_flatMap.mp h
  obtain ⟨b, hb, hab⟩ := List.mem_filterMap.mp hmem
  by_cases hlt : a < b
  · rw [if_pos hlt] at hab
    obtain ⟨rfl, rfl⟩ : a = i ∧ b = j := by
      constructor <;> · injection hab with h'; simp_all
    exact ⟨hlt, List.mem_range.mp hb⟩
  · rw [if_neg hlt] at hab
    exact absurd hab (by simp)

/-- Validity of a candidate produced by the minimum search. -/
def candOk (attr : Person → Option Int) (cs : List (List Person))
    (cand : Option (Nat × Nat × Int)) : Prop :=
  ∀ i j d, cand = some (i, j, d) →
    i < j ∧ j < cs.length ∧ clusterDist attr (cs.getD i []) (cs.getD j []) = some d

theorem foldl_betterCand_ok (attr : Person → Option Int) (cs : List (List Person)) :
    ∀ (l : List (Nat × Nat)) (best : Option (Nat × Nat × Int)),
      (∀ pr ∈ l, pr.1 < pr.2 ∧ pr.2 < cs.length) → candOk attr cs best →
      candOk attr cs (l.foldl (betterCand attr cs) best) := by
  intro l
  induction l with
  | nil => intro best _ hbest; exact hbest
  | cons pr rest ih =>
    intro best hl hbest
    refine ih _ (fun q hq => hl q (List.mem_cons_of_mem pr hq)) ?_
    have hpr := hl pr (List.mem_cons_self pr rest)
    unfold betterCand
    split
    next => exact hbest
    next d hdist =>
      split
      next =>
        intro i j d' h
        injection h with h'
        obtain ⟨e1, e2⟩ := Prod.ext_iff.mp h'
        obtain ⟨e3, e4⟩ := Prod.ext_iff.mp e2
        subst e1; subst e3; subst e4
        exact ⟨hpr.1, hpr.2, hdist⟩
      next i0 j0 d0 =>
        split
        next hlt =>
          intro i j d' h
          injection h with h'
          obtain ⟨e1, e2⟩ := Prod.ext_iff.mp h'
          obtain ⟨e3, e4⟩ := Prod.ext_iff.mp e2
          subst e1; subst e3; subst e4
          exact ⟨hpr.1, hpr.2, hdist⟩
        next => exact hbest

theorem findClosestPair_ok (attr : Person → Option Int) (cs : List (List Person)) :
    candOk attr cs (findClosestPair attr cs) := by
  refine foldl_betterCand_ok attr cs (pairList cs.length) none ?_ ?_
  · intro pr hpr
    obtain ⟨i, j⟩ := pr
    exact pairList_bounds hpr
  · intro i j d h
    cases h

theorem getD_flatten_eraseIdx_perm :
    ∀ (t : List (List Person)) (k : Nat), k < t.length →
      t.getD k [] ++ (t.eraseIdx k).flatten ~ t.flatten := by
  intro t
  induction t with
  | nil => intro k hk; simp at hk
  | cons c rest ih =>
    intro k hk
    cases k with
    | zero => simp
    | succ k' =>
      have hk' : k' < rest.length := by simpa using hk
      simp only [List.getD_cons_succ, List.eraseIdx_cons_succ, List.flatten_cons]
      calc rest.getD k' [] ++ (c ++ (rest.eraseIdx k').flatten)
          ~ c ++ (rest.getD k' [] ++ (rest.eraseIdx k').flatten) := by
            rw [List.perm_iff_count]
            intro x
            simp only [List.count_append]
            omega
        _ ~ c ++ rest.flatten := (ih k' hk').append_left c

theorem mergeAt_flatten_perm (cs : List (List Person)) (i j : Nat)
    (hij : i < j) (hj : j < cs.length) :
    (mergeAt cs i j).flatten ~ cs.flatten := by
  unfold mergeAt
  induction cs generalizing i j with
  | nil => simp at hj
  | cons c rest ih =>
    cases i with
    | zero =>
      obtain ⟨j', rfl⟩ : ∃ j', j = j' + 1 := ⟨j - 1, by omega⟩
      have hj' : j' < rest.length := by simpa using hj
      simp only [List.getD_cons_zero, List.getD_cons_succ, List.set_cons_zero,
        List.eraseIdx_cons_succ, List.flatten_cons, List.append_assoc]
      refine List.Perm.append_left c ?_
      exact getD_flatten_eraseIdx_perm rest j' hj'
    | succ i' =>
      obtain ⟨j', rfl⟩ : ∃ j', j = j' + 1 := ⟨j - 1, by omega⟩
      have hij' : i' < j' := by omega
      have hj' : j' < rest.length := by simpa using hj
      simp only [List.getD_cons_succ, List.set_cons_succ, List.eraseIdx_cons_succ,
        List.flatten_cons]
      exact (ih i' j' hij' hj').append_left c

theorem mem_mergeAt_cases {cs : List (List Person)} {i j : Nat} {c : List Person}
    (h : c ∈ mergeAt cs i j) :
    c = cs.getD i [] ++ cs.getD j [] ∨ c ∈ cs := by
  unfold mergeAt at h
  have h2 : c ∈ cs.set i (cs.getD i [] ++ cs.getD j []) :=
    (List.eraseIdx_sublist _ j).mem h
  rcases List.mem_or_eq_of_mem_set h2 with h3 | h3
  · exact Or.inr h3
  · exact Or.inl h3

/-- Bounded diameter of one cluster: any two parsed timestamps in it are
within `thresh` seconds of each other. -/
def diamOk (attr : Person → Option Int) (thresh : Int) (c : List Person) : Prop :=
  ∀ p ∈ c, ∀ q ∈ c, ∀ a b, attr p = some a → attr q = some b →
    (((a - b).natAbs : Int)) ≤ thresh

theorem le_foldl_max (l : List Int) (b : Int) :
    b ≤ l.foldl max b ∧ ∀ x ∈ l, x ≤ l.foldl max b := by
  induction l generalizing b with
  | nil => exact ⟨le_refl b, by simp⟩
  | cons y ys ih =>
    obtain ⟨h1, h2⟩ := ih (max b y)
    refine ⟨le_trans (le_max_left b y) h1, ?_⟩
    intro x hx
    rcases List.mem_cons.mp hx with rfl | hx'
    · exact le_trans (le_max_right b x) h1
    · exact h2 x hx'

theorem clusterDist_bound {attr : Person → Option Int} {c1 c2 : List Person} {d : Int}
    (h : clusterDist attr c1 c2 = some d) :
    ∀ p ∈ c1, ∀ q ∈ c2, ∀ a b, attr p = some a → attr q = some b →
      (((a - b).natAbs : Int)) ≤ d := by
  intro p hp q hq a b ha hb
  unfold clusterDist at h
  rw [if_neg] at h
  · have hd : ((timesList attr c1).flatMap
        (fun a => (timesList attr c2).map (fun b => ((a - b).natAbs : Int)))).foldl max 0 = d :=
      Option.some.injEq .. ▸ h
    have ha' : a ∈ timesList attr c1 := List.mem_filterMap.mpr ⟨p, hp, ha⟩
    have hb' : b ∈ timesList attr c2 := List.mem_filterMap.mpr ⟨q, hq, hb⟩
    have hmem : ((a - b).natAbs : Int) ∈ (timesList attr c1).flatMap
        (fun a => (timesList attr c2).map (fun b => ((a - b).natAbs : Int))) :=
      List.mem_flatMap.mpr ⟨a, ha', List.mem_map.mpr ⟨b, hb', rfl⟩⟩
    rw [← hd]
    exact (le_foldl_max _ 0).2 _ hmem
  · intro hcon
    rcases Bool.or_eq_true_iff.mp hcon with hc | hc
    · have : timesList attr c1 = [] := List.isEmpty_iff.mp hc
      rw [this] at h
      simp at h
    · have : timesList attr c2 = [] := List.isEmpty_iff.mp hc
      rw [this] at h
      simp at h

theorem clusterDist_some_nonempty {attr : Person → Option Int} {c1 c2 : List Person} {d : Int}
    (h : clusterDist attr c1 c2 = some d) :
    ¬(timesList attr c1).isEmpty ∧ ¬(timesList attr c2).isEmpty := by
  unfold clusterDist at h
  by_cases hc : ((timesList attr c1).isEmpty || (timesList attr c2).isEmpty) = true
  · rw [if_pos hc] at h; cases h
  · constructor <;> · intro hcon; exact hc (by simp_all)

theorem diamOk_merge {attr : Person → Option Int} {thresh : Int} {c1 c2 : List Person} {d : Int}
    (hd : clusterDist attr c1 c2 = some d) (hdt : d ≤ thresh)
    (h1 : diamOk attr thresh c1) (h2 : diamOk attr thresh c2) :
    diamOk attr thresh (c1 ++ c2) := by
  intro p hp q hq a b ha hb
  rcases List.mem_append.mp hp with hp1 | hp2 <;> rcases List.mem_append.mp hq with hq1 | hq2
  · exact h1 p hp1 q hq1 a b ha hb
  · exact le_trans (clusterDist_bound hd p hp1 q hq2 a b ha hb) hdt
  · have := le_trans (clusterDist_bound hd q hq1 p hp2 b a hb ha) hdt
    have habs : (a - b).natAbs = (b - a).natAbs := by omega
    rw [habs]
    exact this
  · exact h2 p hp2 q hq2 a b ha hb

/-- The full loop invariant of `_cluster_by_time`: every cluster has bounded
diameter, is nonempty, and the clusters partition the input. -/
def clustersOk (attr : Person → Option Int) (thresh : Int) (travelers : List Person)
    (cs : List (List Person)) : Prop :=
  (∀ c ∈ cs, diamOk attr thresh c ∧ c ≠ []) ∧ cs.flatten ~ travelers

theorem clusterStep_ok {attr : Person → Option Int} {thresh : Int} {travelers : List Person}
    {cs cs2 : List (List Person)} (hstep : clusterStep attr thresh cs = some cs2)
    (hok : clustersOk attr thresh travelers cs) :
    clustersOk attr thresh travelers cs2 := by
  unfold clusterStep at hstep
  split at hstep
  · cases hstep
  next i j d hfind =>
    split at hstep
    next hdt =>
      obtain ⟨hij, hj, hdist⟩ := findClosestPair_ok attr cs i j d hfind
      have hcs2 : cs2 = mergeAt cs i j := by
        injection hstep with h'
        exact h'.symm
      subst hcs2
      obtain ⟨hmem, hperm⟩ := hok
      have hi : i < cs.length := lt_trans hij hj
      have hgetDi : cs.getD i [] ∈ cs := by
        rw [List.getD_eq_getElem cs [] hi]
        exact List.getElem_mem hi
      have hgetDj : cs.getD j [] ∈ cs := by
        rw [List.getD_eq_getElem cs [] hj]
        exact List.getElem_mem hj
      constructor
      · intro c hc
        rcases mem_mergeAt_cases hc with rfl | hc2
        · refine ⟨diamOk_merge hdist hdt (hmem _ hgetDi).1 (hmem _ hgetDj).1, ?_⟩
          intro hcon
          have := (hmem _ hgetDi).2
          simp_all
        · exact hmem c hc2
      · exact (mergeAt_flatten_perm cs i j hij hj).trans hperm
    next => cases hstep

theorem clusterLoop_ok {attr : Person → Option Int} {thresh : Int} {travelers : List Person} :
    ∀ (fuel : Nat) (cs : List (List Person)), clustersOk attr thresh travelers cs →
      clustersOk attr thresh travelers (clusterLoop attr thresh fuel cs) := by
  intro fuel
  induction fuel with
  | zero => intro cs h; exact h
  | succ fuel ih =>
    intro cs h
    unfold clusterLoop
    rcases hstep : clusterStep attr thresh cs with _ | cs2
    · exact h
    · exact ih cs2 (clusterStep_ok hstep h)

theorem flatten_map_singleton (l : List Person) :
    (l.map (fun p => [p])).flatten = l := by
  induction l with
  | nil => rfl
  | cons p rest ih => simp [ih]

/-- C6's content: under a nonnegative threshold, every output cluster of
`_cluster_by_time` has complete-linkage diameter at most the threshold (in
seconds), and the output clusters partition the input cohort. -/
theorem cluster_by_time_ok (attr : Person → Option Int) (travelers : List Person)
    (threshSec : Int) (hpos : 0 ≤ threshSec) :
    (∀ c ∈ cluster_by_time attr travelers threshSec,
        diamOk attr threshSec c ∧ c ≠ []) ∧
      (cluster_by_time attr travelers threshSec).flatten ~ travelers := by
  have hinit : clustersOk attr threshSec travelers (travelers.map (fun p => [p])) := by
    constructor
    · intro c hc
      obtain ⟨p, -, rfl⟩ := List.mem_map.mp hc
      refine ⟨?_, by simp⟩
      intro x hx y hy a b ha hb
      rw [List.mem_singleton.mp hx] at ha
      rw [List.mem_singleton.mp hy] at hb
      rw [ha] at hb
      have : a = b := by injection hb
      subst this
      simpa using hpos
    · rw [flatten_map_singleton]
  exact clusterLoop_ok travelers.length _ hinit

theorem clusterStep_flatten_perm {attr : Person → Option Int} {thresh : Int}
    {cs cs2 : List (List Person)} (hstep : clusterStep attr thresh cs = some cs2) :
    cs2.flatten ~ cs.flatten := by
  unfold clusterStep at hstep
  split at hstep
  · cases hstep
  next i j d hfind =>
    split at hstep
    next hdt =>
      obtain ⟨hij, hj, -⟩ := findClosestPair_ok attr cs i j d hfind
      have hcs2 : cs2 = mergeAt cs i j := by
        injection hstep with h'
        exact h'.symm
      subst hcs2
      exact mergeAt_flatten_perm cs i j hij hj
    next => cases hstep

theorem clusterLoop_flatten_perm (attr : Person → Option Int) (thresh : Int) :
    ∀ (fuel : Nat) (cs : List (List Person)),
      (clusterLoop attr thresh fuel cs).flatten ~ cs.flatten := by
  intro fuel
  induction fuel with
  | zero => intro cs; exact List.Perm.refl _
  | succ fuel ih =>
    intro cs
    unfold clusterLoop
    rcases hstep : clusterStep attr thresh cs with _ | cs2
    · exact List.Perm.refl _
    · exact (ih cs2).trans (clusterStep_flatten_perm hstep)

/-- The output clusters of `_cluster_by_time` partition the cohort (no
threshold assumption needed). -/
theorem cluster_by_time_flatten_perm (attr : Person → Option Int)
    (travelers : List Person) (threshSec : Int) :
    (cluster_by_time attr travelers threshSec).flatten ~ travelers := by
  unfold cluster_by_time
  refine (clusterLoop_flatten_perm attr threshSec travelers.length _).trans ?_
  rw [flatten_map_singleton]

theorem mem_eraseIdx_of_ne {v : α} [Inhabited α] :
    ∀ (t : List α) (k : Nat), v ∈ t → v ≠ t.getD k default → v ∈ t.eraseIdx k := by
  intro t
  induction t with
  | nil => intro k hv _; cases hv
  | cons a t' ih =>
    intro k hv hne
    cases k with
    | zero =>
      rcases List.mem_cons.mp hv with rfl | hv'
      · exact absurd rfl hne
      · simpa using hv'
    | succ k' =>
      rcases List.mem_cons.mp hv with rfl | hv'
      · exact List.mem_cons_self _ _
      · exact List.mem_cons_of_mem a (ih k' hv' hne)

theorem mem_mergeAt_of_ne {v : List Person} :
    ∀ (cs : List (List Person)) (i j : Nat), i < j → j < cs.length →
      v ∈ cs → v ≠ cs.getD i [] → v ≠ cs.getD j [] → v ∈ mergeAt cs i j := by
  intro cs
  induction cs with
  | nil => intro i j _ hj; simp at hj
  | cons c rest ih =>
    intro i j hij hj hv hnei hnej
    obtain ⟨j', rfl⟩ : ∃ j', j = j' + 1 := ⟨j - 1, by omega⟩
    cases i with
    | zero =>
      rcases List.mem_cons.mp hv with rfl | hv'
      · exact absurd rfl hnei
      · unfold mergeAt
        simp only [List.getD_cons_zero, List.getD_cons_succ, List.set_cons_zero,
          List.eraseIdx_cons_succ]
        refine List.mem_cons_of_mem _ ?_
        have : v ∈ rest.eraseIdx j' := by
          have h' : v ≠ rest.getD j' ([] : List Person) := by
            simpa using hnej
          have hd : rest.getD j' ([] : List Person) = rest.getD j' default := rfl
          exact mem_eraseIdx_of_ne rest j' hv' (hd ▸ h')
        exact this
    | succ i' =>
      rcases List.mem_cons.mp hv with rfl | hv'
      · unfold mergeAt
        simp only [List.getD_cons_succ, List.set_cons_succ, List.eraseIdx_cons_succ]
        exact List.mem_cons_self _ _
      · have hj' : j' < rest.length := by simpa using hj
        have := ih i' j' (by omega) hj' hv' (by simpa using hnei) (by simpa using hnej)
        unfold mergeAt at this ⊢
        simp only [List.getD_cons_succ, List.set_cons_succ, List.eraseIdx_cons_succ]
        exact List.mem_cons_of_mem c this

/-- A cluster with no parsed timestamps is at infinite distance from every
other cluster, so a merge never involves it. -/
theorem singleton_preserved_step {attr : Person → Option Int} {thresh : Int}
    {cs cs2 : List (List Person)} {p : Person}
    (hattr : attr p = none) (hstep : clusterStep attr thresh cs = some cs2)
    (hmem : [p] ∈ cs) : [p] ∈ cs2 := by
  unfold clusterStep at hstep
  split at hstep
  · cases hstep
  next i j d hfind =>
    split at hstep
    next hdt =>
      obtain ⟨hij, hj, hdist⟩ := findClosestPair_ok attr cs i j d hfind
      have hcs2 : cs2 = mergeAt cs i j := by
        injection hstep with h'
        exact h'.symm
      subst hcs2
      obtain ⟨hne1, hne2⟩ := clusterDist_some_nonempty hdist
      have hpempty : (timesList attr [p]).isEmpty = true := by
        simp [timesList, hattr]
      refine mem_mergeAt_of_ne cs i j hij hj hmem ?_ ?_
      · intro hcon
        rw [← hcon] at hne1
        exact hne1 hpempty
      · intro hcon
        rw [← hcon] at hne2
        exact hne2 hpempty
    next => cases hstep

theorem singleton_preserved_loop {attr : Person → Option Int} {thresh : Int} {p : Person}
    (hattr : attr p = none) :
    ∀ (fuel : Nat) (cs : List (List Person)), [p] ∈ cs →
      [p] ∈ clusterLoop attr thresh fuel cs := by
  intro fuel
  induction fuel with
  | zero => intro cs h; exact h
  | succ fuel ih =>
    intro cs h
    unfold clusterLoop
    rcases hstep : clusterStep attr thresh cs with _ | cs2
    · exact h
    · exact ih cs2 (singleton_preserved_step hattr hstep h)

theorem flatten_nodup_unique {x : α} :
    ∀ {L : List (List α)}, L.flatten.Nodup → ∀ {c1 c2 : List α},
      c1 ∈ L → c2 ∈ L → x ∈ c1 → x ∈ c2 → c1 = c2 := by
  intro L
  induction L with
  | nil => intro _ c1 c2 h1; cases h1
  | cons h t ih =>
    intro hnd c1 c2 h1 h2 hx1 hx2
    rw [List.flatten_cons, List.nodup_append] at hnd
    obtain ⟨hh, ht, hdisj⟩ := hnd
    rcases List.mem_cons.mp h1 with rfl | h1' <;> rcases List.mem_cons.mp h2 with rfl | h2'
    · rfl
    · exact absurd (List.mem_flatten.mpr ⟨c2, h2', hx2⟩) (fun hc => hdisj hx1 hc)
    · exact absurd (List.mem_flatten.mpr ⟨c1, h1', hx1⟩) (fun hc => hdisj hx2 hc)
    · exact ih ht h1' h2' hx1 hx2

/-- Isolation of timestamp-less travelers in `_cluster_by_time`: a traveler
whose clustering attribute is `None` always ends in the singleton cluster
`[p]`, for every cohort (of pairwise-distinct travelers) and threshold. -/
theorem cluster_by_time_isolates (attr : Person → Option Int) (travelers : List Person)
    (threshSec : Int) (p : Person) (hnd : travelers.Nodup) (hp : p ∈ travelers)
    (hattr : attr p = none) :
    [p] ∈ cluster_by_time attr travelers threshSec ∧
      ∀ c ∈ cluster_by_time attr travelers threshSec, p ∈ c → c = [p] := by
  have hinit : [p] ∈ travelers.map (fun q => [q]) := List.mem_map.mpr ⟨p, hp, rfl⟩
  have hmem : [p] ∈ cluster_by_time attr travelers threshSec :=
    singleton_preserved_loop hattr travelers.length _ hinit
  refine ⟨hmem, ?_⟩
  intro c hc hpc
  have hflat : (cluster_by_time attr travelers threshSec).flatten.Nodup :=
    (cluster_by_time_flatten_perm attr travelers threshSec).symm.nodup hnd
  exact flatten_nodup_unique hflat hc hmem hpc (List.mem_singleton_self p)

/-! ### Segmentation engines: `Parser.ride_to_support`, `Parser.ride_to_hotel`,
`Parser.ride_to_airport` (givetochat1_6.py lines 220-343) -/

/-- Key fragment produced by `strftime('%Y-%m-%d %H:%M')`: determined by, and
determining, the timestamp truncated to the minute. -/
def minuteKey (t : Int) : String := toString (t / 60)

/-- Key fragment produced by `.date()`: the epoch day. -/
def dateKey (t : Int) : String := toString (t / 86400)

/-- Key fragment produced by `strftime('%H:%M')`: the minute of the day. -/
def hmKey (t : Int) : String := toString ((t % 86400) / 60)

/-- Sort key of `ride_to_support` (line 271): the tuple
`(role, app, hotel, location, begin_onsite)`, as a boolean `≤` for the
stable sort (the `if p.begin_onsite else datetime.min` fallback is dead code
since a `datetime` is always truthy). -/
def supportSortLe (a b : Person) : Bool :=
  if a.role != b.role then strLt a.role b.role
  else if a.app != b.app then strLt a.app b.app
  else if a.hotel != b.hotel then strLt a.hotel b.hotel
  else if a.location != b.location then strLt a.location b.location
  else decide (a.begin_onsite ≤ b.begin_onsite)

/-- `ride_to_support` cohort key (lines 276-278):
`f"{role} | {hotel.strip()} | {location.strip()} | {begin} to {end}"` —
note that the affiliation `app` does NOT appear in it. -/
def supportBaseKey (p : Person) : String :=
  p.role ++ " | " ++ strTrim p.hotel ++ " | " ++ strTrim p.location ++ " | " ++
    minuteKey p.begin_onsite ++ " to " ++ minuteKey p.end_onsite

/-- Lines 279-281: special travelers get their own name-prefixed key. -/
def supportKey (p : Person) : String :=
  if special p then p.name ++ " | " ++ supportBaseKey p else supportBaseKey p

/-- `Parser.ride_to_support(people)` (lines 268-284): stable-sort, then group
by the exact key. -/
def ride_to_support (people : List Person) : List (String × List Person) :=
  groupBy supportKey (stableSort supportSortLe people)

/-- Sort key shared by `ride_to_hotel` (line 233) and `ride_to_airport`
(line 300): `(p.hotel.strip(), p.depart_date)`. -/
def hotelSortLe (a b : Person) : Bool :=
  if strTrim a.hotel != strTrim b.hotel then strLt (strTrim a.hotel) (strTrim b.hotel)
  else decide (a.depart_date ≤ b.depart_date)

/-- Special-traveler singleton key `f"{p.app} | {p.name}"` used by
`ride_to_hotel` (line 239) and `ride_to_airport` (line 306). -/
def specialKey (p : Person) : String := p.app ++ " | " ++ p.name

/-- `ride_to_hotel` group key (lines 248-251): hotel, departure date,
arrival city, optionally the arrival flight number (exact-flight mode). -/
def hotelGroupKey (useFlightNumber : Bool) (p : Person) : String :=
  let base := strTrim p.hotel ++ " | " ++ dateKey p.depart_date ++ " | " ++ p.arrival_flight.city
  if useFlightNumber then base ++ " | " ++ p.arrival_flight.flightNumber else base

/-- The `f"{start}-{end}"` display suffix of a cluster (lines 260-263 and
333-336): clock times of the earliest and latest timestamped member, or
`Unknown` when there are none. -/
def timeRangeLabel (attr : Person → Option Int) (cl : List Person) : String :=
  match stableSort (fun a b : Int => decide (a ≤ b)) (cl.filterMap attr) with
  | [] => "Unknown" ++ "-" ++ "Unknown"
  | t :: rest => hmKey t ++ "-" ++ hmKey (rest.getLastD t)

/-- Step 2 shared by `ride_to_hotel` and `ride_to_airport` (lines 257-263 and
330-336): split every bucket by temporal clustering and store each cluster
under the bucket key extended with the observed time range (plain dict
assignment, so a label collision overwrites). -/
def clusterGroups (attr : Person → Option Int) (threshSec : Int)
    (gs : List (String × List Person)) : List (String × List Person) :=
  gs.foldl
    (fun acc g =>
      (cluster_by_time attr g.2 threshSec).foldl
        (fun acc2 cl => setGroup acc2 (g.1 ++ " | " ++ timeRangeLabel attr cl) cl) acc)
    []

/-- `Parser.ride_to_hotel(all_people, thresh)` (lines 220-265), with the
threshold in seconds (`thresh == 0` turns on exact-flight-number grouping). -/
def ride_to_hotel (all_people : List Person) (threshSec : Int) :
    List (String × List Person) :=
  let use_flight_number := threshSec == 0
  let people0 := all_people.filter (fun p => !p.personalHotel)
  let people1 := stableSort hotelSortLe people0
  let specials := people1.filter special
  let remainder := people1.filter (fun p => !special p)
  let groups0 := specials.foldl (fun gs p => addToGroups gs (specialKey p) p) []
  let groups1 := remainder.foldl
    (fun gs p => addToGroups gs (hotelGroupKey use_flight_number p) p) groups0
  clusterGroups (fun p => p.arrival_dt) threshSec groups1

/-- `from_loc` key of `ride_to_airport` (lines 316-320). -/
def airportFromLocKey (useFlightNumber : Bool) (p : Person) : String :=
  let base := p.location ++ " | " ++ p.return_flight.city ++ " | " ++ dateKey p.end_onsite
  if useFlightNumber then base ++ " | " ++ p.return_flight.flightNumber else base

/-- `from_hotel` key of `ride_to_airport` (lines 323-324). -/
def airportFromHotelKey (p : Person) : String :=
  p.hotel ++ " | " ++ p.return_flight.city ++ " | " ++ dateKey p.end_onsite

/-- `Parser.ride_to_airport(all_people, thresh)` (lines 286-343).  The final
loop of the source (lines 338-341) appends travelers to the already-consumed
`groups_noTime` dict AFTER `carpool_groups` — the returned dict — has been
built, so it cannot affect the returned value and has no counterpart here;
note it would in any case append the travelers whose on-site end time is
`>= 11:00` (the cutoff-passers), not the excluded night shifters. -/
def ride_to_airport (all_people : List Person) (threshSec : Int) :
    List (String × List Person) :=
  let use_flight_number := threshSec == 0
  let people0 := all_people.filter (fun p => !p.personalAirport)
  let people1 := people0.filter (fun p => decide (39600 ≤ p.end_onsite % 86400))
  let people2 := stableSort hotelSortLe people1
  let specials := people2.filter special
  let remainder := people2.filter (fun p => !special p)
  let groups0 := specials.foldl (fun gs p => addToGroups gs (specialKey p) p) []
  let from_loc := remainder.filter (fun p => p.end_onsite / 86400 == p.return_date / 86400)
  let from_hotel := remainder.filter (fun p => p.end_onsite / 86400 != p.return_date / 86400)
  let groups1 := from_loc.foldl
    (fun gs p => addToGroups gs (airportFromLocKey use_flight_number p) p) groups0
  let groups2 := from_hotel.foldl
    (fun gs p => addToGroups gs (airportFromHotelKey p) p) groups1
  clusterGroups (fun p => p.return_dt) threshSec groups2

/-! ### Vehicle identifiers and `_assign_cabs` (cabpool.py lines 22-140) -/

/-- The three `id_type` values accepted by `_assign_cabs`. -/
inductive IdType
  | hotel
  | support
  | airport
deriving DecidableEq, Repr

/-- Little-endian decimal digits of `n` (fuel-based; `fuel ≥ n` suffices). -/
def decDigitsAux : Nat → Nat → List Nat
  | 0, _ => []
  | fuel + 1, n => if n = 0 then [] else n % 10 :: decDigitsAux fuel (n / 10)

/-- The character of one decimal digit. -/
def digitChar (d : Nat) : Char := Char.ofNat (48 + d)

/-- Plain decimal rendering of a natural number. -/
def natDecimal (n : Nat) : String :=
  if n = 0 then "0" else String.mk (((decDigitsAux n n).map digitChar).reverse)

/-- Python `f"{n:02d}"`: zero-pad to width 2. -/
def pad2 (n : Nat) : String := if n < 10 then "0" ++ natDecimal n else natDecimal n

/-- Python `f"{n:03d}"`: zero-pad to width 3. -/
def pad3 (n : Nat) : String :=
  if n < 10 then "00" ++ natDecimal n
  else if n < 100 then "0" ++ natDecimal n
  else natDecimal n

/-- `_generate_airport_cab_id(index)` (cabpool.py lines 28-36):
`index // 26 + 1` copies of the letter `chr(ord('A') + index % 26)`. -/
def airportCabId (idx : Nat) : String :=
  String.mk (List.replicate (idx / 26 + 1) (Char.ofNat (65 + idx % 26)))

/-- The identifier issued for counter value `idx` per segment type
(cabpool.py lines 121-132): hotel `f"{idx+1:02d}"`, support
`f"{100+idx:03d}"`, airport letters. -/
def cabIdFor : IdType → Nat → String
  | .hotel, idx => pad2 (idx + 1)
  | .support, idx => pad3 (100 + idx)
  | .airport, idx => airportCabId idx

/-- Value of a little-endian digit list. -/
def decVal : List Nat → Nat
  | [] => 0
  | d :: ds => d + 10 * decVal ds

theorem decVal_decDigitsAux : ∀ (fuel n : Nat), n ≤ fuel →
    decVal (decDigitsAux fuel n) = n := by
  intro fuel
  induction fuel with
  | zero => intro n hn; interval_cases n; rfl
  | succ fuel ih =>
    intro n hn
    unfold decDigitsAux
    by_cases h0 : n = 0
    · simp [h0, decVal]
    · rw [if_neg h0]
      unfold decVal
      rw [ih (n / 10) (by omega)]
      omega

theorem decDigitsAux_lt10 : ∀ (fuel n : Nat), ∀ d ∈ decDigitsAux fuel n, d < 10 := by
  intro fuel
  induction fuel with
  | zero => intro n d hd; cases hd
  | succ fuel ih =>
    intro n d hd
    unfold decDigitsAux at hd
    by_cases h0 : n = 0
    · rw [if_pos h0] at hd; cases hd
    · rw [if_neg h0] at hd
      rcases List.mem_cons.mp hd with rfl | hd'
      · omega
      · exact ih (n / 10) d hd'

theorem decDigitsAux_ne_nil : ∀ (fuel n : Nat), n ≠ 0 → n ≤ fuel →
    decDigitsAux fuel n ≠ [] := by
  intro fuel n h0 hn
  cases fuel with
  | zero => omega
  | succ fuel =>
    unfold decDigitsAux
    rw [if_neg h0]
    exact List.cons_ne_nil _ _

theorem decDigitsAux_getLast_ne_zero : ∀ (fuel n : Nat), n ≠ 0 → n ≤ fuel →
    ∀ d, (decDigitsAux fuel n).getLast? = some d → d ≠ 0 := by
  intro fuel
  induction fuel with
  | zero => intro n h0 hn; omega
  | succ fuel ih =>
    intro n h0 hn d hd
    unfold decDigitsAux at hd
    rw [if_neg h0] at hd
    by_cases h10 : n / 10 = 0
    · have : decDigitsAux fuel (n / 10) = [] := by
        cases fuel with
        | zero => rfl
        | succ fuel => unfold decDigitsAux; rw [if_pos h10]
      rw [this] at hd
      simp only [List.getLast?_singleton, Option.some.injEq] at hd
      omega
    · obtain ⟨x, xs, hxr⟩ := List.exists_cons_of_ne_nil
        (decDigitsAux_ne_nil fuel (n / 10) h10 (by omega))
      rw [hxr, List.getLast?_cons_cons, ← hxr] at hd
      exact ih (n / 10) h10 (by omega) d hd

theorem digitChar_toNat {d : Nat} (hd : d < 10) : (digitChar d).toNat = 48 + d := by
  interval_cases d <;> decide

theorem digitChar_inj {d1 d2 : Nat} (h1 : d1 < 10) (h2 : d2 < 10)
    (h : digitChar d1 = digitChar d2) : d1 = d2 := by
  have := congrArg Char.toNat h
  rw [digitChar_toNat h1, digitChar_toNat h2] at this
  omega

theorem map_digitChar_inj : ∀ (l1 l2 : List Nat), (∀ d ∈ l1, d < 10) → (∀ d ∈ l2, d < 10) →
    l1.map digitChar = l2.map digitChar → l1 = l2 := by
  intro l1
  induction l1 with
  | nil => intro l2 _ _ h; cases l2 with
    | nil => rfl
    | cons d l2 => cases h
  | cons d l1 ih =>
    intro l2 hb1 hb2 h
    cases l2 with
    | nil => cases h
    | cons e l2 =>
      simp only [List.map_cons, List.cons.injEq] at h
      have hde : d = e := digitChar_inj (hb1 d (List.mem_cons_self d l1))
        (hb2 e (List.mem_cons_self e l2)) h.1
      rw [hde, ih l2 (fun x hx => hb1 x (List.mem_cons_of_mem d hx))
        (fun x hx => hb2 x (List.mem_cons_of_mem e hx)) h.2]

theorem natDecimal_data (n : Nat) (hn : n ≠ 0) :
    (natDecimal n).data = ((decDigitsAux n n).map digitChar).reverse := by
  unfold natDecimal
  rw [if_neg hn]

theorem natDecimal_data_ne_zero_str {m : Nat} (hm : m ≠ 0) :
    (natDecimal m).data ≠ ['0'] := by
  intro hd
  rw [natDecimal_data m hm] at hd
  have hmap : (decDigitsAux m m).map digitChar = ['0'] := by
    have := congrArg List.reverse hd
    simpa using this
  obtain ⟨d, hd1, hd2⟩ : ∃ d, decDigitsAux m m = [d] ∧ digitChar d = '0' := by
    cases hdm : decDigitsAux m m with
    | nil => rw [hdm] at hmap; cases hmap
    | cons d rest =>
      rw [hdm] at hmap
      simp only [List.map_cons, List.cons.injEq] at hmap
      have hrest : rest = [] := by
        cases rest with
        | nil => rfl
        | cons x xs => cases hmap.2
      exact ⟨d, by rw [hrest], hmap.1⟩
  have hd10 : d < 10 := decDigitsAux_lt10 m m d (by rw [hd1]; exact List.mem_singleton_self d)
  have hdz : d = 0 := digitChar_inj hd10 (by omega) (by rw [hd2]; decide)
  have hval := decVal_decDigitsAux m m (le_refl m)
  rw [hd1, hdz] at hval
  simp [decVal] at hval
  exact hm hval.symm

theorem natDecimal_inj {n m : Nat} (h : natDecimal n = natDecimal m) : n = m := by
  by_cases hn : n = 0 <;> by_cases hm : m = 0
  · omega
  · exfalso
    have hd := congrArg String.data h
    rw [hn] at hd
    have h0 : (natDecimal 0).data = ['0'] := by decide
    rw [h0] at hd
    exact natDecimal_data_ne_zero_str hm hd.symm
  · exfalso
    have hd := congrArg String.data h
    rw [hm] at hd
    have h0 : (natDecimal 0).data = ['0'] := by decide
    rw [h0] at hd
    exact natDecimal_data_ne_zero_str hn hd
  · have hd := congrArg String.data h
    rw [natDecimal_data n hn, natDecimal_data m hm] at hd
    have h1 := List.reverse_injective hd
    have h2 := map_digitChar_inj _ _ (decDigitsAux_lt10 n n) (decDigitsAux_lt10 m m) h1
    rw [← decVal_decDigitsAux n n (le_refl n), ← decVal_decDigitsAux m m (le_refl m), h2]

theorem mem_of_getLast?_eq {l : List α} {a : α} (h : l.getLast? = some a) : a ∈ l := by
  induction l with
  | nil => cases h
  | cons x xs ih =>
    cases xs with
    | nil =>
      rw [List.getLast?_singleton] at h
      rw [List.mem_singleton]
      injection h with h'
      exact h'.symm
    | cons y ys =>
      rw [List.getLast?_cons_cons] at h
      exact List.mem_cons_of_mem x (ih h)

theorem natDecimal_head_ne_zero {m : Nat} (hm : m ≠ 0) :
    (natDecimal m).data.head? ≠ some '0' := by
  intro h
  rw [natDecimal_data m hm, List.head?_reverse, List.getLast?_map] at h
  cases hlast : (decDigitsAux m m).getLast? with
  | none => rw [hlast] at h; cases h
  | some d =>
    rw [hlast] at h
    have hd : digitChar d = '0' := by
      simpa using h
    have hd10 : d < 10 := decDigitsAux_lt10 m m d (mem_of_getLast?_eq hlast)
    have hdz : d = 0 := digitChar_inj hd10 (by omega) (by rw [hd]; decide)
    exact decDigitsAux_getLast_ne_zero m m hm (le_refl m) d hlast hdz

theorem pad2_inj {n m : Nat} (hn : 1 ≤ n) (hm : 1 ≤ m) (h : pad2 n = pad2 m) : n = m := by
  unfold pad2 at h
  by_cases h1 : n < 10 <;> by_cases h2 : m < 10
  · rw [if_pos h1, if_pos h2] at h
    have hd := congrArg String.data h
    simp only [String.data_append] at hd
    have : (natDecimal n).data = (natDecimal m).data := by simpa using hd
    exact natDecimal_inj (String.ext this)
  · exfalso
    rw [if_pos h1, if_neg h2] at h
    have hd := congrArg String.data h
    simp only [String.data_append] at hd
    have hz : (natDecimal m).data.head? = some '0' := by
      rw [← hd]; rfl
    exact natDecimal_head_ne_zero (by omega) hz
  · exfalso
    rw [if_neg h1, if_pos h2] at h
    have hd := congrArg String.data h
    simp only [String.data_append] at hd
    have hz : (natDecimal n).data.head? = some '0' := by
      rw [hd]; rfl
    exact natDecimal_head_ne_zero (by omega) hz
  · rw [if_neg h1, if_neg h2] at h
    exact natDecimal_inj h

theorem pad3_inj_ge100 {n m : Nat} (hn : 100 ≤ n) (hm : 100 ≤ m) (h : pad3 n = pad3 m) :
    n = m := by
  unfold pad3 at h
  rw [if_neg (by omega), if_neg (by omega), if_neg (by omega), if_neg (by omega)] at h
  exact natDecimal_inj h

theorem letterChar_toNat {k : Nat} (hk : k < 26) : (Char.ofNat (65 + k)).toNat = 65 + k := by
  interval_cases k <;> decide

theorem airportCabId_inj {i j : Nat} (h : airportCabId i = airportCabId j) : i = j := by
  unfold airportCabId at h
  have hd := congrArg String.data h
  simp only at hd
  have hlen := congrArg List.length hd
  simp only [List.length_replicate] at hlen
  have hhead := congrArg List.head? hd
  rw [List.head?_replicate, List.head?_replicate, if_neg (by omega), if_neg (by omega)] at hhead
  have hchar : Char.ofNat (65 + i % 26) = Char.ofNat (65 + j % 26) := by
    injection hhead
  have := congrArg Char.toNat hchar
  rw [letterChar_toNat (Nat.mod_lt i (by omega)), letterChar_toNat (Nat.mod_lt j (by omega))]
    at this
  omega

/-- Each of the three identifier sequences is injective: an identifier
determines the counter value that produced it, so no identifier is ever
issued twice. -/
theorem cabIdFor_injective (t : IdType) : Function.Injective (cabIdFor t) := by
  intro i j h
  cases t with
  | hotel =>
    have := pad2_inj (by omega) (by omega) h
    omega
  | support =>
    have := pad3_inj_ge100 (by omega) (by omega) h
    omega
  | airport => exact airportCabId_inj h

/-! ### `_assign_cabs` (cabpool.py lines 94-140) -/

/-- The inner loop of `_assign_cabs` over the sub-cabs of one group: a
sub-cab with fewer than 2 riders is skipped (no identifier consumed); others
receive `cabIdFor t` of the current counter, which then increments. -/
def assignCabsGroup (t : IdType) : List (List Person) → Nat → List (String × List Person) × Nat
  | [], c => ([], c)
  | riders :: rest, c =>
    if riders.length < 2 then assignCabsGroup t rest c
    else
      let r := assignCabsGroup t rest (c + 1)
      ((cabIdFor t c, riders) :: r.1, r.2)

/-- `_assign_cabs(groups, id_type)` (lines 94-140), with the relevant global
counter threaded explicitly: per group, split with
`_assign_with_app_preference` and allocate identifiers to the ≥2-rider
sub-cabs; an empty group gets an empty cab map. -/
def assignCabs (t : IdType) :
    List (String × List Person) → Nat → List (String × List (String × List Person)) × Nat
  | [], c => ([], c)
  | (key, people) :: rest, c =>
    if people.isEmpty then
      let r := assignCabs t rest c
      ((key, []) :: r.1, r.2)
    else
      let g := assignCabsGroup t (assignWithAppPreference people) c
      let r := assignCabs t rest g.2
      ((key, g.1) :: r.1, r.2)

/-- All identifiers issued by one `_assign_cabs` call, in issuance order. -/
def issuedIds (asgn : List (String × List (String × List Person))) : List String :=
  asgn.flatMap (fun g => g.2.map Prod.fst)

theorem assignCabsGroup_spec (t : IdType) :
    ∀ (scs : List (List Person)) (c : Nat),
      (assignCabsGroup t scs c).1.map Prod.fst =
        (List.range' c (scs.countP (fun r => decide (2 ≤ r.length)))).map (cabIdFor t) ∧
      (assignCabsGroup t scs c).2 = c + scs.countP (fun r => decide (2 ≤ r.length)) ∧
      ∀ pr ∈ (assignCabsGroup t scs c).1, 2 ≤ pr.2.length := by
  intro scs
  induction scs with
  | nil =>
    intro c
    refine ⟨by simp [assignCabsGroup], by simp [assignCabsGroup], by simp [assignCabsGroup]⟩
  | cons riders rest ih =>
    intro c
    by_cases hlen : riders.length < 2
    · have hcount : (riders :: rest).countP (fun r => decide (2 ≤ r.length)) =
          rest.countP (fun r => decide (2 ≤ r.length)) := by
        rw [List.countP_cons]
        simp [show ¬(2 ≤ riders.length) from by omega]
      unfold assignCabsGroup
      rw [if_pos hlen, hcount]
      exact ih c
    · have hcount : (riders :: rest).countP (fun r => decide (2 ≤ r.length)) =
          rest.countP (fun r => decide (2 ≤ r.length)) + 1 := by
        rw [List.countP_cons]
        simp [show 2 ≤ riders.length from by omega]
      obtain ⟨ih1, ih2, ih3⟩ := ih (c + 1)
      unfold assignCabsGroup
      rw [if_neg hlen, hcount]
      refine ⟨?_, ?_, ?_⟩
      · show ((cabIdFor t c, riders) :: (assignCabsGroup t rest (c + 1)).1).map Prod.fst = _
        rw [List.map_cons, ih1, List.range'_succ c _ 1, List.map_cons]
      · show (assignCabsGroup t rest (c + 1)).2 = _
        rw [ih2]
        omega
      · intro pr hpr
        rcases List.mem_cons.mp hpr with rfl | hpr'
        · show 2 ≤ riders.length
          omega
        · exact ih3 pr hpr'

theorem assignCabs_spec (t : IdType) :
    ∀ (groups : List (String × List Person)) (c : Nat),
      issuedIds (assignCabs t groups c).1 =
        (List.range' c ((assignCabs t groups c).2 - c)).map (cabIdFor t) ∧
      c ≤ (assignCabs t groups c).2 := by
  intro groups
  induction groups with
  | nil =>
    intro c
    refine ⟨by simp [assignCabs, issuedIds], le_refl c⟩
  | cons g rest ih =>
    intro c
    obtain ⟨key, people⟩ := g
    by_cases hemp : people.isEmpty
    · unfold assignCabs
      rw [if_pos hemp]
      obtain ⟨ih1, ih2⟩ := ih c
      refine ⟨?_, ih2⟩
      show issuedIds ((key, []) :: (assignCabs t rest c).1) = _
      simp only [issuedIds, List.flatMap_cons, List.map_nil, List.nil_append]
      simpa [issuedIds] using ih1
    · obtain ⟨g1, g2, -⟩ := assignCabsGroup_spec t (assignWithAppPreference people) c
      set k := (assignWithAppPreference people).countP (fun r => decide (2 ≤ r.length)) with hk
      obtain ⟨ih1, ih2⟩ := ih ((assignCabsGroup t (assignWithAppPreference people) c).2)
      rw [g2] at ih1 ih2
      unfold assignCabs
      rw [if_neg hemp]
      constructor
      · show issuedIds ((key, (assignCabsGroup t (assignWithAppPreference people) c).1) ::
          (assignCabs t rest (assignCabsGroup t (assignWithAppPreference people) c).2).1) = _
        simp only [issuedIds, List.flatMap_cons, g2]
        rw [g1]
        have hflat : (assignCabs t rest (c + k)).1.flatMap (fun g => g.2.map Prod.fst) =
            issuedIds (assignCabs t rest (c + k)).1 := rfl
        rw [hflat, ih1]
        rw [← List.map_append]
        congr 1
        have happ := List.range'_append c k ((assignCabs t rest (c + k)).2 - (c + k)) 1
        simp only [one_mul] at happ
        rw [happ]
        congr 1
        omega
      · show c ≤ (assignCabs t rest (assignCabsGroup t (assignWithAppPreference people) c).2).2
        rw [g2]
        omega

/-! ### `write_cab_excel` counter threading (cabpool.py lines 143-162) -/

/-- The three module-level counters of cabpool.py (lines 22-25).  They are
initialized once at import time and `_assign_cabs` only ever increments them
(`global` statement, line 105); no code resets them between runs. -/
structure CabCounters where
  hotel : Nat
  support : Nat
  airport : Nat
deriving DecidableEq, Repr

/-- The grouping and cab-assignment steps of `write_cab_excel` (cabpool.py
lines 143-162), with the global counters as explicit in/out state: hotel
grouping in strict-flight mode (`thresh=0`, line 150), support grouping over
everyone, airport grouping over non-personal travelers with the default
1-hour window, then `_assign_cabs` for the three segments in order. -/
def runCabPipeline (all_people : List Person) (st : CabCounters) :
    (List (String × List (String × List Person)) ×
      List (String × List (String × List Person)) ×
      List (String × List (String × List Person))) × CabCounters :=
  let hotel_candidates := all_people.filter (fun p => !p.personalHotel)
  let rh := ride_to_hotel hotel_candidates 0
  let rs := ride_to_support all_people
  let airport_candidates := all_people.filter (fun p => !p.personalAirport)
  let ra := ride_to_airport airport_candidates 3600
  let h := assignCabs .hotel rh st.hotel
  let s := assignCabs .support rs st.support
  let a := assignCabs .airport ra st.airport
  ((h.1, s.1, a.1), ⟨h.2, s.2, a.2⟩)

/-! ### Go-live support backfill
(`generate_carpool_assignments`, go_live_carpooling.py lines 59-139) -/

/-- `not (p.has_rental_car or p.given_rental_car)` — the guard that admits a
traveler into the backfill pool (lines 86, 96). -/
def rentalFree (p : Person) : Bool := !(p.has_rental_car || p.given_rental_car)

/-- The time/place compatibility test of the backfill search (lines 113-118
and 124-129): same location and hotel, equal begin/end clock times, and the
candidate's on-site window contained in the driver's. -/
def backfillMatchOk (driver p : Person) : Bool :=
  p.location == driver.location && p.hotel == driver.hotel &&
    p.begin_onsite % 86400 == driver.begin_onsite % 86400 &&
    p.end_onsite % 86400 == driver.end_onsite % 86400 &&
    decide (driver.begin_onsite ≤ p.begin_onsite) &&
    decide (p.end_onsite ≤ driver.end_onsite)

/-- Lines 110-131: first pool member with the driver's `app` that fits, else
first pool member of any `app` that fits. -/
def backfillFind (driver : Person) (pool : List Person) : Option Person :=
  match pool.find? (fun p => p.app == driver.app && backfillMatchOk driver p) with
  | some m => some m
  | none => pool.find? (fun p => backfillMatchOk driver p)

/-- The `while len(passengers) < 2` loop for one driver (lines 106-137): find
a match, seat it, remove it from the pool.  The passenger list only grows,
so the loop body runs at most twice; fuel 2 is exact. -/
def backfillDriver (driver : Person) : Nat → List Person → List Person →
    List Person × List Person
  | 0, passengers, pool => (passengers, pool)
  | fuel + 1, passengers, pool =>
    if passengers.length < 2 then
      match backfillFind driver pool with
      | none => (passengers, pool)
      | some m => backfillDriver driver fuel (passengers ++ [m]) (pool.erase m)
    else (passengers, pool)

/-- The loop over one group's cars (lines 103-139): a special driver is
skipped (`continue`, line 104) and keeps their passenger list unchanged. -/
def backfillCars : List (Person × List Person) → List Person →
    List (Person × List Person) × List Person
  | [], pool => ([], pool)
  | (driver, passengers) :: rest, pool =>
    if special driver then
      let r := backfillCars rest pool
      ((driver, passengers) :: r.1, r.2)
    else
      let d := backfillDriver driver 2 passengers pool
      let r := backfillCars rest d.2
      ((driver, d.1) :: r.1, r.2)

/-- The loop over all support groups (lines 102-139). -/
def backfillAll : List (String × List (Person × List Person)) → List Person →
    List (String × List (Person × List Person)) × List Person
  | [], pool => ([], pool)
  | (key, cars) :: rest, pool =>
    let c := backfillCars cars pool
    let r := backfillAll rest c.2
    ((key, c.1) :: r.1, r.2)

/-- Contribution of one group to `unassigned_support` (lines 81-97): from a
driverless group (`not cars`), every member without a car; from a group with
drivers, every member that is not a driver (`p not in cars.keys()`), not an
assigned passenger, and has no car. -/
def groupPool (G : List Person) (cars : List (Person × List Person)) : List Person :=
  if cars.isEmpty then G.filter rentalFree
  else
    G.filter (fun p =>
      !(cars.any (fun c => c.1 == p)) &&
      !((cars.flatMap (fun c => c.2)).any (fun q => q == p)) &&
      rentalFree p)

/-- Collection of `unassigned_support` across the groups (lines 81-97). -/
def collectUnassigned
    (pairs : List ((String × List Person) × List (Person × List Person))) : List Person :=
  pairs.flatMap (fun gc => groupPool gc.1.2 gc.2)

/-- Pool priority (lines 98-100): stable sort by on-site duration,
descending (`reverse=True`). -/
def durationDescLe (a b : Person) : Bool :=
  decide (b.end_onsite - b.begin_onsite ≤ a.end_onsite - a.begin_onsite)

/-- The support-segment part of `generate_carpool_assignments`
(go_live_carpooling.py lines 68, 72 and 74-139): group, assign drivers and
passengers per cohort, collect the unassigned pool, sort it, and run the
backfill pass.  Returns the final assignments and the remaining pool. -/
def goLiveSupport (all_people : List Person) :
    List (String × List (Person × List Person)) × List Person :=
  let rs := ride_to_support all_people
  let support_assignments := assign_carpool_passengers rs
  let pool0 := collectUnassigned (rs.zip (support_assignments.map (fun g => g.2)))
  let pool := stableSort durationDescLe pool0
  backfillAll support_assignments pool

/-- All passengers seated across a whole segment's assignments. -/
def allSeated (ass : List (String × List (Person × List Person))) : List Person :=
  ass.flatMap (fun g => g.2.flatMap (fun u => u.2))

theorem backfillFind_mem {driver : Person} {pool : List Person} {m : Person}
    (h : backfillFind driver pool = some m) : m ∈ pool := by
  unfold backfillFind at h
  split at h
  next heq =>
    injection h with h'
    subst h'
    exact List.mem_of_find?_eq_some heq
  next => exact List.mem_of_find?_eq_some h

theorem backfillDriver_perm (driver : Person) :
    ∀ (fuel : Nat) (passengers pool : List Person),
      (backfillDriver driver fuel passengers pool).1 ++
          (backfillDriver driver fuel passengers pool).2 ~ passengers ++ pool := by
  intro fuel
  induction fuel with
  | zero => intro passengers pool; exact List.Perm.refl _
  | succ fuel ih =>
    intro passengers pool
    unfold backfillDriver
    by_cases hlen : passengers.length < 2
    · rw [if_pos hlen]
      rcases hfind : backfillFind driver pool with _ | m
      · exact List.Perm.refl _
      · have hm : m ∈ pool := backfillFind_mem hfind
        refine (ih (passengers ++ [m]) (pool.erase m)).trans ?_
        rw [List.perm_iff_count]
        intro x
        have hcnt := List.perm_iff_count.mp (List.perm_cons_erase hm) x
        simp only [List.count_append, List.count_cons, List.count_nil] at hcnt ⊢
        omega
    · rw [if_neg hlen]

/-- All passengers seated in one group's cars. -/
def seatedCars (cars : List (Person × List Person)) : List Person :=
  cars.flatMap (fun u => u.2)

theorem backfillCars_perm :
    ∀ (cars : List (Person × List Person)) (pool : List Person),
      seatedCars (backfillCars cars pool).1 ++ (backfillCars cars pool).2 ~
        seatedCars cars ++ pool := by
  intro cars
  induction cars with
  | nil => intro pool; exact List.Perm.refl _
  | cons u rest ih =>
    intro pool
    obtain ⟨driver, passengers⟩ := u
    unfold backfillCars
    by_cases hsp : special driver
    · rw [if_pos hsp]
      show seatedCars ((driver, passengers) :: (backfillCars rest pool).1) ++
        (backfillCars rest pool).2 ~ _
      rw [List.perm_iff_count]
      intro x
      have h := List.perm_iff_count.mp (ih pool) x
      simp only [seatedCars, List.flatMap_cons, List.count_append] at h ⊢
      omega
    · rw [if_neg hsp]
      show seatedCars ((driver, (backfillDriver driver 2 passengers pool).1) ::
        (backfillCars rest (backfillDriver driver 2 passengers pool).2).1) ++
        (backfillCars rest (backfillDriver driver 2 passengers pool).2).2 ~ _
      rw [List.perm_iff_count]
      intro x
      have h1 := List.perm_iff_count.mp
        (ih (backfillDriver driver 2 passengers pool).2) x
      have h2 := List.perm_iff_count.mp (backfillDriver_perm driver 2 passengers pool) x
      simp only [seatedCars, List.flatMap_cons, List.count_append] at h1 h2 ⊢
      omega

theorem backfillAll_perm :
    ∀ (ass : List (String × List (Person × List Person))) (pool : List Person),
      allSeated (backfillAll ass pool).1 ++ (backfillAll ass pool).2 ~
        allSeated ass ++ pool := by
  intro ass
  induction ass with
  | nil => intro pool; exact List.Perm.refl _
  | cons g rest ih =>
    intro pool
    obtain ⟨key, cars⟩ := g
    unfold backfillAll
    show allSeated ((key, (backfillCars cars pool).1) ::
      (backfillAll rest (backfillCars cars pool).2).1) ++
      (backfillAll rest (backfillCars cars pool).2).2 ~ _
    rw [List.perm_iff_count]
    intro x
    have h1 := List.perm_iff_count.mp (ih (backfillCars cars pool).2) x
    have h2 := List.perm_iff_count.mp (backfillCars_perm cars pool) x
    simp only [allSeated, seatedCars, List.flatMap_cons, List.count_append] at h1 h2 ⊢
    omega

theorem seatedCars_eq (cars : List (Person × List Person)) :
    seatedCars cars = (cars.map Prod.snd).flatten := by
  rw [seatedCars, List.flatMap_def]

/-- Count bound for one support group: a traveler occurs among this group's
seated passengers plus its pool contribution at most as often as in the
group itself (the pool filter excludes already-seated travelers). -/
theorem group_seated_pool_count (G : List Person) (x : Person) :
    (seatedCars (assign_carpool_group G).1).count x +
      (groupPool G (assign_carpool_group G).1).count x ≤ G.count x := by
  set cars := (assign_carpool_group G).1 with hcars
  by_cases hemp : cars.isEmpty
  · have hseated : seatedCars cars = [] := by
      have : cars = [] := List.isEmpty_iff.mp hemp
      rw [this]; rfl
    rw [hseated, groupPool, if_pos hemp]
    simp only [List.count_nil, Nat.zero_add]
    exact (List.filter_sublist G).count_le x
  · rw [groupPool, if_neg hemp]
    have hcons := (assign_carpool_group_conservation G).1
    have hcnt := List.perm_iff_count.mp hcons x
    simp only [List.count_append] at hcnt
    rw [← seatedCars_eq] at hcnt
    rw [← hcars] at hcnt
    by_cases hx : x ∈ seatedCars cars
    · have hpool : (G.filter (fun p =>
          !(cars.any (fun c => c.1 == p)) &&
          !((cars.flatMap (fun c => c.2)).any (fun q => q == p)) &&
          rentalFree p)).count x = 0 := by
        rw [List.count_eq_zero]
        intro hmem
        have hpred := List.of_mem_filter hmem
        simp only [Bool.and_eq_true, Bool.not_eq_true'] at hpred
        have hany : (cars.flatMap (fun c => c.2)).any (fun q => q == x) = true := by
          rw [List.any_eq_true]
          exact ⟨x, hx, by simp⟩
        rw [hpred.1.2] at hany
        cases hany
      rw [hpool]
      omega
    · have hseated : (seatedCars cars).count x = 0 := List.count_eq_zero.mpr hx
      rw [hseated]
      have := (@List.filter_sublist _ (fun p =>
        !(cars.any (fun c => c.1 == p)) &&
        !((cars.flatMap (fun c => c.2)).any (fun q => q == p)) &&
        rentalFree p) G).count_le x
      omega

theorem init_count_bound :
    ∀ (groups : List (String × List Person)) (x : Person),
      (allSeated (assign_carpool_passengers groups)).count x +
        (collectUnassigned
          (groups.zip ((assign_carpool_passengers groups).map (fun g => g.2)))).count x ≤
        (groupsFlatten groups).count x := by
  intro groups
  induction groups with
  | nil => intro x; simp [assign_carpool_passengers, collectUnassigned, allSeated, groupsFlatten]
  | cons g rest ih =>
    intro x
    obtain ⟨key, G⟩ := g
    have hmap : assign_carpool_passengers ((key, G) :: rest) =
        (key, (assign_carpool_group G).1) :: assign_carpool_passengers rest := rfl
    rw [hmap]
    have hzip : ((key, G) :: rest).zip
        (((key, (assign_carpool_group G).1) :: assign_carpool_passengers rest).map
          (fun g => g.2)) =
        ((key, G), (assign_carpool_group G).1) ::
          rest.zip ((assign_carpool_passengers rest).map (fun g => g.2)) := rfl
    rw [hzip]
    have hhead := group_seated_pool_count G x
    have htail := ih x
    simp only [allSeated, collectUnassigned, groupsFlatten, List.flatMap_cons,
      List.count_append] at hhead htail ⊢
    simp only [seatedCars] at hhead
    omega

theorem seated_rentalFree {G : List Person} {x : Person}
    (hx : x ∈ seatedCars (assign_carpool_group G).1) : rentalFree x = true := by
  have hcons := (roundRobinAssign_conservation (G.filter isGoLiveDriver)
    (G.filter (fun p => !isGoLiveDriver p))).2
  have hx' : x ∈ ((assign_carpool_group G).1.map Prod.snd).flatten := by
    rw [← seatedCars_eq]; exact hx
  have hx'' : x ∈ G.filter (fun p => !isGoLiveDriver p) := by
    refine hcons.mem_iff.mp ?_
    have : ((assign_carpool_group G).1.map Prod.snd).flatten =
        ((roundRobinAssign (G.filter isGoLiveDriver)
          (G.filter (fun p => !isGoLiveDriver p))).1.map Prod.snd).flatten := rfl
    rw [this] at hx'
    exact List.mem_append_left _ hx'
  have := List.of_mem_filter hx''
  simpa [rentalFree, isGoLiveDriver] using this

theorem pool_rentalFree {G : List Person} {cars : List (Person × List Person)} {x : Person}
    (hx : x ∈ groupPool G cars) : rentalFree x = true := by
  unfold groupPool at hx
  split at hx
  · exact List.of_mem_filter hx
  · have := List.of_mem_filter hx
    simp only [Bool.and_eq_true] at this
    exact this.2

theorem collectUnassigned_rentalFree
    {pairs : List ((String × List Person) × List (Person × List Person))} {x : Person}
    (hx : x ∈ collectUnassigned pairs) : rentalFree x = true := by
  unfold collectUnassigned at hx
  obtain ⟨gc, -, hmem⟩ := List.mem_flatMap.mp hx
  exact pool_rentalFree hmem

theorem allSeated_rentalFree {groups : List (String × List Person)} {x : Person}
    (hx : x ∈ allSeated (assign_carpool_passengers groups)) : rentalFree x = true := by
  unfold allSeated assign_carpool_passengers at hx
  obtain ⟨g, hg, hmem⟩ := List.mem_flatMap.mp hx
  obtain ⟨g0, -, rfl⟩ := List.mem_map.mp hg
  exact seated_rentalFree hmem

/-- Seat uniqueness and rental-freedom of the go-live support segment after
the backfill pass: across ALL final passenger lists no traveler appears
twice, and no traveler with a car (owned or granted) appears at all. -/
theorem goLiveSupport_sound (all_people : List Person) (hnd : all_people.Nodup) :
    (allSeated (goLiveSupport all_people).1).Nodup ∧
      ∀ p ∈ allSeated (goLiveSupport all_people).1, rentalFree p = true := by
  have hflat : groupsFlatten (ride_to_support all_people) ~ all_people :=
    (groupBy_perm supportKey (stableSort supportSortLe all_people)).trans
      (stableSort_perm supportSortLe all_people)
  have hcount1 : ∀ x : Person, (groupsFlatten (ride_to_support all_people)).count x ≤ 1 := by
    intro x
    rw [List.perm_iff_count.mp hflat x]
    exact List.nodup_iff_count_le_one.mp hnd x
  have hinit : ∀ x : Person,
      (allSeated (assign_carpool_passengers (ride_to_support all_people)) ++
        stableSort durationDescLe
          (collectUnassigned ((ride_to_support all_people).zip
            ((assign_carpool_passengers (ride_to_support all_people)).map
              (fun g => g.2))))).count x ≤ 1 := by
    intro x
    rw [List.count_append]
    have hb := init_count_bound (ride_to_support all_people) x
    have hs := List.perm_iff_count.mp
      (stableSort_perm durationDescLe
        (collectUnassigned ((ride_to_support all_people).zip
          ((assign_carpool_passengers (ride_to_support all_people)).map (fun g => g.2))))) x
    have h1 := hcount1 x
    omega
  have hinitnd : (allSeated (assign_carpool_passengers (ride_to_support all_people)) ++
      stableSort durationDescLe
        (collectUnassigned ((ride_to_support all_people).zip
          ((assign_carpool_passengers (ride_to_support all_people)).map
            (fun g => g.2))))).Nodup :=
    List.nodup_iff_count_le_one.mpr hinit
  have hperm := backfillAll_perm
    (assign_carpool_passengers (ride_to_support all_people))
    (stableSort durationDescLe
      (collectUnassigned ((ride_to_support all_people).zip
        ((assign_carpool_passengers (ride_to_support all_people)).map (fun g => g.2)))))
  have hfinalnd := hperm.symm.nodup hinitnd
  constructor
  · exact hfinalnd.of_append_left
  · intro p hp
    have hp2 : p ∈ allSeated (assign_carpool_passengers (ride_to_support all_people)) ++
        stableSort durationDescLe
          (collectUnassigned ((ride_to_support all_people).zip
            ((assign_carpool_passengers (ride_to_support all_people)).map
              (fun g => g.2)))) :=
      hperm.mem_iff.mp (List.mem_append_left _ hp)
    rcases List.mem_append.mp hp2 with hseat | hpool
    · exact allSeated_rentalFree hseat
    · have := (stableSort_perm durationDescLe _).mem_iff.mp hpool
      exact collectUnassigned_rentalFree this

/-! ### Aggregate facts about `_assign_cabs` for the identifier claims -/

/-- The number of identifier-consuming (≥2-rider) sub-cabs over a whole
groups dict. -/
def totalBigCabs (groups : List (String × List Person)) : Nat :=
  (groups.map (fun g => if g.2.isEmpty then 0 else
    (assignWithAppPreference g.2).countP (fun r => decide (2 ≤ r.length)))).sum

theorem assignCabs_counter (t : IdType) :
    ∀ (groups : List (String × List Person)) (c : Nat),
      (assignCabs t groups c).2 = c + totalBigCabs groups := by
  intro groups
  induction groups with
  | nil => intro c; simp [assignCabs, totalBigCabs]
  | cons g rest ih =>
    intro c
    obtain ⟨key, people⟩ := g
    by_cases hemp : people.isEmpty
    · have hpe : people = [] := List.isEmpty_iff.mp hemp
      subst hpe
      unfold assignCabs
      rw [if_pos (by rfl : ([] : List Person).isEmpty = true)]
      show (assignCabs t rest c).2 = _
      rw [ih c]
      simp [totalBigCabs]
    · obtain ⟨-, g2, -⟩ := assignCabsGroup_spec t (assignWithAppPreference people) c
      unfold assignCabs
      rw [if_neg hemp]
      show (assignCabs t rest (assignCabsGroup t (assignWithAppPreference people) c).2).2 = _
      rw [ih _, g2]
      simp only [totalBigCabs, List.map_cons, List.sum_cons, hemp, if_neg]
      simp only [Bool.false_eq_true, if_false]
      omega

theorem assignCabs_riders (t : IdType) :
    ∀ (groups : List (String × List Person)) (c : Nat),
      ∀ g ∈ (assignCabs t groups c).1, ∀ pr ∈ g.2, 2 ≤ pr.2.length := by
  intro groups
  induction groups with
  | nil => intro c g hg; cases hg
  | cons g0 rest ih =>
    intro c g hg
    obtain ⟨key, people⟩ := g0
    by_cases hemp : people.isEmpty
    · unfold assignCabs at hg
      rw [if_pos hemp] at hg
      rcases List.mem_cons.mp hg with rfl | hg'
      · intro pr hpr; cases hpr
      · exact ih c g hg'
    · obtain ⟨-, -, g3⟩ := assignCabsGroup_spec t (assignWithAppPreference people) c
      unfold assignCabs at hg
      rw [if_neg hemp] at hg
      rcases List.mem_cons.mp hg with rfl | hg'
      · intro pr hpr
        exact g3 pr hpr
      · exact ih _ g hg'

/-! ### Key/bucket facts about `groupBy` (for the cohort-key claims) -/

theorem addToGroups_map_fst (gs : List (String × List Person)) (k : String) (p : Person) :
    (addToGroups gs k p).map Prod.fst =
      if k ∈ gs.map Prod.fst then gs.map Prod.fst else gs.map Prod.fst ++ [k] := by
  induction gs with
  | nil => simp [addToGroups]
  | cons g rest ih =>
    obtain ⟨k', ps⟩ := g
    by_cases hk : (k' == k) = true
    · have : k' = k := by simpa using hk
      subst this
      simp [addToGroups, hk]
    · have hne : k' ≠ k := by simpa using hk
      simp only [addToGroups, hk, Bool.false_eq_true, if_false, List.map_cons, ih]
      by_cases hmem : k ∈ rest.map Prod.fst
      · rw [if_pos hmem, if_pos (by simp [hmem])]
      · rw [if_neg hmem, if_neg (by simp [hmem, Ne.symm hne])]
        rfl

theorem addToGroups_keys_nodup (gs : List (String × List Person)) (k : String) (p : Person)
    (h : (gs.map Prod.fst).Nodup) : ((addToGroups gs k p).map Prod.fst).Nodup := by
  rw [addToGroups_map_fst]
  by_cases hmem : k ∈ gs.map Prod.fst
  · rw [if_pos hmem]; exact h
  · rw [if_neg hmem]
    rw [List.nodup_append]
    refine ⟨h, List.nodup_singleton k, ?_⟩
    intro a ha hak
    rw [List.mem_singleton] at hak
    subst hak
    exact hmem ha

theorem groupBy_keys_nodup (key : Person → String) (l : List Person) :
    ((groupBy key l).map Prod.fst).Nodup := by
  suffices h : ∀ (ppl : List Person) (acc : List (String × List Person)),
      (acc.map Prod.fst).Nodup →
      ((ppl.foldl (fun gs p => addToGroups gs (key p) p) acc).map Prod.fst).Nodup by
    exact h l [] (by simp)
  intro ppl
  induction ppl with
  | nil => intro acc h; exact h
  | cons p rest ih =>
    intro acc h
    exact ih _ (addToGroups_keys_nodup acc (key p) p h)

theorem addToGroups_mem_key {key : Person → String} {gs : List (String × List Person)}
    {q : Person} (hinv : ∀ g ∈ gs, ∀ r ∈ g.2, key r = g.1) :
    ∀ g ∈ addToGroups gs (key q) q, ∀ r ∈ g.2, key r = g.1 := by
  induction gs with
  | nil =>
    intro g hg r hr
    rcases List.mem_singleton.mp hg with rfl
    rcases List.mem_singleton.mp hr with rfl
    rfl
  | cons g0 rest ih =>
    obtain ⟨k', ps⟩ := g0
    intro g hg r hr
    by_cases hk : (k' == key q) = true
    · rw [show addToGroups ((k', ps) :: rest) (key q) q = (k', ps ++ [q]) :: rest from by
        simp [addToGroups, hk]] at hg
      rcases List.mem_cons.mp hg with rfl | hg'
      · rcases List.mem_append.mp hr with hr' | hr'
        · exact hinv (k', ps) (List.mem_cons_self _ _) r hr'
        · rcases List.mem_singleton.mp hr' with rfl
          simpa using (by simpa using hk : k' = key r).symm
      · exact hinv g (List.mem_cons_of_mem _ hg') r hr
    · rw [show addToGroups ((k', ps) :: rest) (key q) q =
          (k', ps) :: addToGroups rest (key q) q from by simp [addToGroups, hk]] at hg
      rcases List.mem_cons.mp hg with rfl | hg'
      · exact hinv (k', ps) (List.mem_cons_self _ _) r hr
      · exact ih (fun g' hg' r' hr' => hinv g' (List.mem_cons_of_mem _ hg') r' hr') g hg' r hr

theorem groupBy_mem_key (key : Person → String) (l : List Person) :
    ∀ g ∈ groupBy key l, ∀ r ∈ g.2, key r = g.1 := by
  suffices h : ∀ (ppl : List Person) (acc : List (String × List Person)),
      (∀ g ∈ acc, ∀ r ∈ g.2, key r = g.1) →
      ∀ g ∈ ppl.foldl (fun gs p => addToGroups gs (key p) p) acc, ∀ r ∈ g.2, key r = g.1 by
    exact h l [] (by intro g hg; cases hg)
  intro ppl
  induction ppl with
  | nil => intro acc h; exact h
  | cons p rest ih =>
    intro acc h
    exact ih _ (addToGroups_mem_key h)

theorem map_fst_nodup_unique {l : List (String × List Person)}
    (hnd : (l.map Prod.fst).Nodup) {g1 g2 : String × List Person}
    (h1 : g1 ∈ l) (h2 : g2 ∈ l) (hk : g1.1 = g2.1) : g1 = g2 := by
  induction l with
  | nil => cases h1
  | cons g0 rest ih =>
    simp only [List.map_cons, List.nodup_cons] at hnd
    rcases List.mem_cons.mp h1 with rfl | h1' <;> rcases List.mem_cons.mp h2 with rfl | h2'
    · rfl
    · exact absurd (hk ▸ List.mem_map_of_mem Prod.fst h2') hnd.1
    · exact absurd (hk ▸ List.mem_map_of_mem Prod.fst h1') hnd.1
    · exact ih hnd.2 h1' h2'

/-- Two travelers with the same key land in one bucket of `groupBy`. -/
theorem groupBy_same_key (key : Person → String) (l : List Person) (p q : Person)
    (hp : p ∈ l) (hq : q ∈ l) (hk : key p = key q) :
    ∃ g ∈ groupBy key l, p ∈ g.2 ∧ q ∈ g.2 := by
  have hpf : p ∈ groupsFlatten (groupBy key l) := (groupBy_perm key l).symm.subset hp
  have hqf : q ∈ groupsFlatten (groupBy key l) := (groupBy_perm key l).symm.subset hq
  obtain ⟨gp, hgp, hpin⟩ := List.mem_flatMap.mp hpf
  obtain ⟨gq, hgq, hqin⟩ := List.mem_flatMap.mp hqf
  have hkp : key p = gp.1 := groupBy_mem_key key l gp hgp p hpin
  have hkq : key q = gq.1 := groupBy_mem_key key l gq hgq q hqin
  have : gp = gq := map_fst_nodup_unique (groupBy_keys_nodup key l) hgp hgq
    (by rw [← hkp, ← hkq, hk])
  exact ⟨gp, hgp, hpin, this ▸ hqin⟩

/-! ### Concrete travelers used by witnesses and counterexamples.
`Person` fields, in order: name, app, role, hotel, location, has_rental_car,
given_rental_car, begin_onsite, end_onsite, depart_date, return_date,
personalHotel, personalAirport, arrival_flight, return_flight, arrival_dt,
return_dt. -/

/-- Midnight of an arbitrary day, in epoch seconds (divisible by 86400). -/
def day0 : Int := 1641600000

/-- A driver with a rental car: on site 08:00-17:00. -/
def pDave : Person :=
  ⟨"Dave", "X", "CC", "H", "L", true, false, day0 + 28800, day0 + 61200, day0, day0,
    false, false, noFlightInfo, noFlightInfo, some day0, some day0⟩

/-- A special traveler (name contains "Exemplar") without a car, with the
same role/hotel/location/on-site window as `pDave`. -/
def pAnn : Person :=
  ⟨"Ann Exemplar", "X", "CC", "H", "L", false, false, day0 + 28800, day0 + 61200, day0, day0,
    false, false, noFlightInfo, noFlightInfo, some day0, some day0⟩

/-- Two car-less travelers with personal airport rides, identical support and
hotel grouping keys; used by the counter-leakage counterexample. -/
def pAlice : Person :=
  ⟨"Alice", "X", "CC", "H", "L", false, false, day0 + 28800, day0 + 61200, day0, day0,
    false, true, noFlightInfo, noFlightInfo, some day0, some day0⟩

def pBob : Person :=
  ⟨"Bob", "X", "CC", "H", "L", false, false, day0 + 28800, day0 + 61200, day0, day0,
    false, true, noFlightInfo, noFlightInfo, some day0, some day0⟩

/-- Two non-special travelers that differ ONLY in affiliation (`app`). -/
def pPat : Person :=
  ⟨"Pat", "X", "CC", "H", "L", false, false, day0 + 28800, day0 + 61200, day0, day0,
    false, false, noFlightInfo, noFlightInfo, some day0, some day0⟩

def pQuinn : Person :=
  ⟨"Quinn", "Y", "CC", "H", "L", false, false, day0 + 28800, day0 + 61200, day0, day0,
    false, false, noFlightInfo, noFlightInfo, some day0, some day0⟩

/-- A traveler whose arrival flight string was unparsable: the flight record
is the sentinel `noFlightInfo` and `arrival_dt` is therefore midnight of the
departure date. -/
def pNoel : Person :=
  ⟨"Noel", "X", "CC", "H", "L", false, false, day0 + 28800, day0 + 61200, day0, day0,
    false, false, noFlightInfo, noFlightInfo, mkArrivalDt day0 noFlightInfo, some day0⟩

/-- A traveler arriving at 00:30 on the same day. -/
def pEarly : Person :=
  ⟨"Early", "X", "CC", "H", "L", false, false, day0 + 28800, day0 + 61200, day0, day0,
    false, false, ⟨"123", 1800, "NoCity"⟩, noFlightInfo, some (day0 + 1800), some day0⟩

/-- A traveler with NO clustering timestamp (`arrival_dt = None`). -/
def pNone : Person :=
  ⟨"Nia", "X", "CC", "H", "L", false, false, day0 + 28800, day0 + 61200, day0, day0,
    false, false, noFlightInfo, noFlightInfo, none, none⟩

/-- A potential night shifter: on-site end clock time 09:00, before the
11:00 cutoff; not a personal airport ride. -/
def pOwl : Person :=
  ⟨"Owl", "X", "CC", "H", "L", false, false, day0 + 28800, day0 + 32400, day0, day0,
    false, false, noFlightInfo, noFlightInfo, some day0, some day0⟩

/-- Five travelers sharing one affiliation (each has `app = "X"`), for the
minimality witness. -/
def ppl5 : List Person := [pDave, pAnn, pAlice, pBob, pPat]

/-! ### Claim theorems -/

/-- C1 (Conservation): for every cohort given to either assignment engine the
traveler multiset is conserved — (a) the bin-packing engine
`_assign_with_app_preference` outputs groups whose occupants are a
permutation of the input, so every input traveler appears in exactly one
output group and no group holds an outsider; (b) in
`assign_carpool_passengers` every cohort member is exactly one of: a driver,
a passenger seated in exactly one driver's list, or unassigned; (c) likewise
for `simple_assign_passengers`.  No traveler is duplicated or dropped. -/
theorem claim_C1 (people : List Person) :
    ((assignWithAppPreference people).flatten ~ people) ∧
      ((assign_carpool_group people).1.map Prod.fst ++
          ((assign_carpool_group people).1.map Prod.snd).flatten ++
          (assign_carpool_group people).2 ~ people) ∧
      ((simple_assign_group people).1.map Prod.fst ++
          ((simple_assign_group people).1.map Prod.snd).flatten ++
          (simple_assign_group people).2 ~ people) :=
  ⟨assignWithAppPreference_perm people, (assign_carpool_group_conservation people).1,
    (simple_assign_group_conservation people).1⟩

/-- C2 counterexample: the go-live support backfill guards only the DRIVER
side.  With driver Dave and the car-less special traveler "Ann Exemplar"
(matching location/hotel/on-site window), the final support assignment
contains a unit with 2 occupants one of whom is special — refuting the claim
that no ≥2-occupant unit ever contains a special traveler. -/
theorem claim_C2_counterexample :
    special pAnn = true ∧ rentalFree pAnn = true ∧
      ((goLiveSupport [pDave, pAnn]).1.any
        (fun g => g.2.any (fun u => decide (1 ≤ u.2.length) && u.2.any special))) = true ∧
      (goLiveSupport [pDave, pAnn]).1.map (fun g => g.2) = [[(pDave, [pAnn])], []] :=
  ⟨by decide, by decide, by decide, by decide⟩

/-- C2 (amended): the special-traveler exclusion holds on the driver side of
the go-live support backfill — the backfill never adds a passenger to a
special driver's unit, which is returned exactly as it entered the pass; the
original blanket claim fails only because a car-less special traveler in the
pool can itself be seated as a passenger of a non-special driver (see the
counterexample). -/
theorem claim_C2 :
    ∀ (cars : List (Person × List Person)) (pool : List Person)
      (u : Person × List Person),
      u ∈ (backfillCars cars pool).1 → special u.1 = true → u ∈ cars := by
  intro cars
  induction cars with
  | nil =>
    intro pool u hu _
    simp [backfillCars] at hu
  | cons c rest ih =>
    intro pool u hu hsp
    obtain ⟨driver, passengers⟩ := c
    by_cases hd : special driver = true
    · unfold backfillCars at hu
      rw [if_pos hd] at hu
      rcases List.mem_cons.mp hu with rfl | hu'
      · exact List.mem_cons_self _ _
      · exact List.mem_cons_of_mem _ (ih pool u hu' hsp)
    · unfold backfillCars at hu
      rw [if_neg hd] at hu
      rcases List.mem_cons.mp hu with rfl | hu'
      · exact absurd hsp hd
      · exact List.mem_cons_of_mem _
          (ih (backfillDriver driver 2 passengers pool).2 u hu' hsp)

theorem claim_C2_witness :
    ((pAnn, ([] : List Person)) ∈ (backfillCars [(pAnn, [])] [pPat]).1 ∧
        special pAnn = true) ∧
      (pAnn, ([] : List Person)) ∈ [(pAnn, ([] : List Person))] :=
  ⟨⟨by decide, by decide⟩,
    claim_C2 [(pAnn, [])] [pPat] (pAnn, []) (by decide) (by decide)⟩

/-- C3 counterexample: `ride_to_support` keys do not mention the affiliation,
so two non-special travelers that differ ONLY in `app` land in the SAME
cohort — refuting the claim they land in different ones. -/
theorem claim_C3_counterexample :
    pPat.app ≠ pQuinn.app ∧ special pPat = false ∧ special pQuinn = false ∧
      ride_to_support [pPat, pQuinn] = [(supportKey pPat, [pPat, pQuinn])] :=
  ⟨by decide, by decide, by decide, by decide⟩

/-- C3 (amended): the to-support cohort key of a non-special traveler is
built from (role, trimmed hotel, trimmed location, begin-on-site minute,
end-on-site minute) ONLY — affiliation is not part of the key — so two
non-special travelers agreeing on those five fields are always placed in the
same cohort, whatever their affiliations. -/
theorem claim_C3 (people : List Person) (p q : Person)
    (hp : p ∈ people) (hq : q ∈ people)
    (hsp : special p = false) (hsq : special q = false)
    (hrole : p.role = q.role) (hhotel : strTrim p.hotel = strTrim q.hotel)
    (hloc : strTrim p.location = strTrim q.location)
    (hbegin : p.begin_onsite / 60 = q.begin_onsite / 60)
    (hend : p.end_onsite / 60 = q.end_onsite / 60) :
    ∃ g ∈ ride_to_support people, p ∈ g.2 ∧ q ∈ g.2 := by
  have hkey : supportKey p = supportKey q := by
    unfold supportKey
    rw [hsp, hsq]
    simp only [Bool.false_eq_true, if_false]
    unfold supportBaseKey minuteKey
    rw [hrole, hhotel, hloc, hbegin, hend]
  exact groupBy_same_key supportKey _ p q (mem_stableSort _ hp) (mem_stableSort _ hq) hkey

theorem claim_C3_witness :
    (pPat ∈ [pPat, pQuinn] ∧ pQuinn ∈ [pPat, pQuinn] ∧ special pPat = false ∧
        special pQuinn = false) ∧
      ∃ g ∈ ride_to_support [pPat, pQuinn], pPat ∈ g.2 ∧ pQuinn ∈ g.2 :=
  ⟨⟨by decide, by decide, by decide, by decide⟩,
    claim_C3 [pPat, pQuinn] pPat pQuinn (by decide) (by decide) (by decide) (by decide)
      rfl rfl rfl rfl rfl⟩

/-- C4 counterexample: a traveler whose arrival flight string was unparsable
carries the sentinel record (`Time = time.min`), hence a REAL `arrival_dt` —
midnight of the departure date — and `_cluster_by_time` merges them with a
00:30 arriver under a 1-hour threshold instead of isolating them in a
singleton cluster. -/
theorem claim_C4_counterexample :
    pNoel.arrival_flight = noFlightInfo ∧
      pNoel.arrival_dt = mkArrivalDt pNoel.depart_date noFlightInfo ∧
      cluster_by_time (fun p => p.arrival_dt) [pNoel, pEarly] 3600 = [[pNoel, pEarly]] :=
  ⟨rfl, rfl, by decide⟩

/-- C4 (amended): only a traveler whose clustering attribute is actually
missing (`None`) is guaranteed isolation: for every cohort of distinct
travelers and every threshold, `_cluster_by_time` keeps such a traveler in
the singleton cluster `[p]`.  A traveler with an unparsable flight time gets
the sentinel `time.min` and hence a real midnight timestamp, which CAN merge
(see the counterexample). -/
theorem claim_C4 (attr : Person → Option Int) (travelers : List Person) (threshSec : Int)
    (p : Person) (hnd : travelers.Nodup) (hp : p ∈ travelers) (hattr : attr p = none) :
    [p] ∈ cluster_by_time attr travelers threshSec ∧
      ∀ c ∈ cluster_by_time attr travelers threshSec, p ∈ c → c = [p] :=
  cluster_by_time_isolates attr travelers threshSec p hnd hp hattr

theorem claim_C4_witness :
    ([pNone, pEarly].Nodup ∧ pNone ∈ [pNone, pEarly] ∧ pNone.arrival_dt = none) ∧
      ([pNone] ∈ cluster_by_time (fun p => p.arrival_dt) [pNone, pEarly] 3600 ∧
        ∀ c ∈ cluster_by_time (fun p => p.arrival_dt) [pNone, pEarly] 3600,
          pNone ∈ c → c = [pNone]) :=
  ⟨⟨by decide, by decide, rfl⟩,
    claim_C4 (fun p => p.arrival_dt) [pNone, pEarly] 3600 pNone (by decide) (by decide) rfl⟩

/-- C5 (Minimality preference): on a cohort of size n in which everyone
shares one affiliation, `_assign_with_app_preference` with n mod 3 ∈ {0, 2}
produces exactly ⌈n/3⌉ groups all of ≥2 occupants (nobody in a 1-occupant
group); with n mod 3 = 1 and n > 3 it produces ⌊n/3⌋ full triples plus
exactly one 1-occupant group. -/
theorem claim_C5 (people : List Person) (a : String) (happ : ∀ p ∈ people, p.app = a) :
    ((people.length % 3 = 0 ∨ people.length % 3 = 2) →
       (assignWithAppPreference people).length = (people.length + 2) / 3 ∧
       ∀ g ∈ assignWithAppPreference people, 2 ≤ g.length) ∧
    (people.length % 3 = 1 → 3 < people.length →
       (assignWithAppPreference people).countP (fun g => g.length == 3) = people.length / 3 ∧
       (assignWithAppPreference people).countP (fun g => g.length == 1) = 1 ∧
       (assignWithAppPreference people).length = people.length / 3 + 1) :=
  binpack_minimality_helper people a happ

theorem claim_C5_witness :
    (∀ p ∈ ppl5, p.app = "X") ∧
      (((ppl5.length % 3 = 0 ∨ ppl5.length % 3 = 2) →
         (assignWithAppPreference ppl5).length = (ppl5.length + 2) / 3 ∧
         ∀ g ∈ assignWithAppPreference ppl5, 2 ≤ g.length) ∧
       (ppl5.length % 3 = 1 → 3 < ppl5.length →
         (assignWithAppPreference ppl5).countP (fun g => g.length == 3) = ppl5.length / 3 ∧
         (assignWithAppPreference ppl5).countP (fun g => g.length == 1) = 1 ∧
         (assignWithAppPreference ppl5).length = ppl5.length / 3 + 1)) :=
  ⟨by decide, claim_C5 ppl5 "X" (by decide)⟩

/-- C6 (Clustering diameter bound): for every cohort, timestamp attribute
and nonnegative threshold (in seconds; the source computes it as
`threshold_hours * 3600`), every cluster output by `_cluster_by_time` has
every pair of timestamped members within the threshold, and the output
clusters form a partition of the input cohort. -/
theorem claim_C6 (attr : Person → Option Int) (travelers : List Person)
    (threshSec : Int) (hpos : 0 ≤ threshSec) :
    (∀ c ∈ cluster_by_time attr travelers threshSec, ∀ p ∈ c, ∀ q ∈ c, ∀ a b : Int,
        attr p = some a → attr q = some b → (((a - b).natAbs : Int)) ≤ threshSec) ∧
      (cluster_by_time attr travelers threshSec).flatten ~ travelers := by
  obtain ⟨h1, h2⟩ := cluster_by_time_ok attr travelers threshSec hpos
  exact ⟨fun c hc => (h1 c hc).1, h2⟩

theorem claim_C6_witness :
    ((0 : Int) ≤ 3600) ∧
      ((∀ c ∈ cluster_by_time (fun p => p.arrival_dt) [pNoel, pEarly] 3600,
          ∀ p ∈ c, ∀ q ∈ c, ∀ a b : Int, p.arrival_dt = some a → q.arrival_dt = some b →
            (((a - b).natAbs : Int)) ≤ 3600) ∧
        (cluster_by_time (fun p => p.arrival_dt) [pNoel, pEarly] 3600).flatten ~
          [pNoel, pEarly]) :=
  ⟨by decide, claim_C6 (fun p => p.arrival_dt) [pNoel, pEarly] 3600 (by decide)⟩

/-- C7 (Identifier monotonicity and format): within one run, `_assign_cabs`
started at counter 0 issues, for its segment type, exactly the identifier
sequence `cabIdFor t 0, cabIdFor t 1, …` (hotel "01","02",…; support
"100","101",…; airport "A"…"Z","AA","BB",…), one per ≥2-rider sub-cab, in
strictly increasing issuance order with no identifier ever reused; a sub-cab
with fewer than 2 riders consumes no identifier (the counter advances exactly
by the number of ≥2-rider sub-cabs, and every recorded cab has ≥2 riders). -/
theorem claim_C7 (t : IdType) (groups : List (String × List Person)) :
    issuedIds (assignCabs t groups 0).1 =
      (List.range (totalBigCabs groups)).map (cabIdFor t) ∧
    (issuedIds (assignCabs t groups 0).1).Nodup ∧
    (assignCabs t groups 0).2 = totalBigCabs groups ∧
    ∀ g ∈ (assignCabs t groups 0).1, ∀ pr ∈ g.2, 2 ≤ pr.2.length := by
  obtain ⟨h1, -⟩ := assignCabs_spec t groups 0
  have hc := assignCabs_counter t groups 0
  rw [hc] at h1
  simp only [Nat.zero_add, Nat.sub_zero] at h1
  refine ⟨?_, ?_, by rw [hc]; omega, assignCabs_riders t groups 0⟩
  · rw [h1, List.range_eq_range']
  · rw [h1]
    exact List.Nodup.map (cabIdFor_injective t) (List.nodup_range' 0 _)

/-- C8 counterexample: two successive invocations of the cab pipeline in the
same process on identical input do NOT issue identical sequences — the
module-global counters are never reset, so the first run issues hotel cab
"01" and the second continues with "02". -/
theorem claim_C8_counterexample :
    issuedIds (runCabPipeline [pAlice, pBob] ⟨0, 0, 0⟩).1.1 = ["01"] ∧
      issuedIds (runCabPipeline [pAlice, pBob]
        (runCabPipeline [pAlice, pBob] ⟨0, 0, 0⟩).2).1.1 = ["02"] ∧
      (["01"] : List String) ≠ ["02"] :=
  ⟨by decide, by decide, by decide⟩

/-- C8 (amended): the vehicle-id counters are module-level process state, not
per-invocation state — a pipeline run started with counter state `st` issues,
per segment, exactly the identifier sequence beginning at the INCOMING
counter value, and leaves the counter advanced by the number of ≥2-rider
cabs; hence a second invocation in the same process continues the sequences
where the first stopped instead of restarting at "01"/"100"/"A" (identical
sequences arise only when each invocation starts in a fresh process). -/
theorem claim_C8 (all_people : List Person) (st : CabCounters) :
    issuedIds (runCabPipeline all_people st).1.1 =
      (List.range' st.hotel ((runCabPipeline all_people st).2.hotel - st.hotel)).map
        (cabIdFor .hotel) ∧
    (runCabPipeline all_people st).2.hotel =
      st.hotel + totalBigCabs (ride_to_hotel (all_people.filter (fun p => !p.personalHotel)) 0) ∧
    issuedIds (runCabPipeline all_people st).1.2.1 =
      (List.range' st.support ((runCabPipeline all_people st).2.support - st.support)).map
        (cabIdFor .support) ∧
    (runCabPipeline all_people st).2.support =
      st.support + totalBigCabs (ride_to_support all_people) ∧
    issuedIds (runCabPipeline all_people st).1.2.2 =
      (List.range' st.airport ((runCabPipeline all_people st).2.airport - st.airport)).map
        (cabIdFor .airport) ∧
    (runCabPipeline all_people st).2.airport =
      st.airport +
        totalBigCabs (ride_to_airport (all_people.filter (fun p => !p.personalAirport)) 3600) :=
  ⟨(assignCabs_spec .hotel (ride_to_hotel (all_people.filter (fun p => !p.personalHotel)) 0)
      st.hotel).1,
    assignCabs_counter .hotel _ st.hotel,
    (assignCabs_spec .support (ride_to_support all_people) st.support).1,
    assignCabs_counter .support _ st.support,
    (assignCabs_spec .airport
      (ride_to_airport (all_people.filter (fun p => !p.personalAirport)) 3600) st.airport).1,
    assignCabs_counter .airport _ st.airport⟩

/-- C9 (code bug): `pOwl` ends on site at 09:00 (before the 11:00 cutoff) and
has no personal airport ride, yet `ride_to_airport` returns a dict with NO
"Potential Night Shift" bucket — in fact an empty dict — so the night
shifter is silently dropped instead of being flagged for manual review: the
source's flagging loop (lines 338-341) appends to the already-consumed
`groups_noTime` dict, with an inverted condition, after the returned
`carpool_groups` has been built. -/
theorem claim_C9 :
    pOwl.personalAirport = false ∧ pOwl.end_onsite % 86400 < 39600 ∧
      ride_to_airport [pOwl] 3600 = [] :=
  ⟨rfl, by decide, by decide⟩

/-- C10 (Seat uniqueness after backfill): for any roster of pairwise-distinct
travelers, after the go-live support backfill completes, the union of all
drivers' passenger lists across the segment is duplicate-free — every
traveler occupies at most one passenger seat, each list is itself
duplicate-free and any two lists are disjoint — and no traveler who has or
was given a rental car appears in any passenger list. -/
theorem claim_C10 (all_people : List Person) (hnd : all_people.Nodup) :
    (allSeated (goLiveSupport all_people).1).Nodup ∧
      ∀ p ∈ allSeated (goLiveSupport all_people).1, rentalFree p = true :=
  goLiveSupport_sound all_people hnd

theorem claim_C10_witness :
    [pDave, pAnn].Nodup ∧
      ((allSeated (goLiveSupport [pDave, pAnn]).1).Nodup ∧
        ∀ p ∈ allSeated (goLiveSupport [pDave, pAnn]).1, rentalFree p = true) :=
  ⟨by decide, claim_C10 [pDave, pAnn] (by decide)⟩

end Carpool
